import Mathlib

/-!
Verification of the WebCrypto polyfill library (SubtleCrypto dispatcher,
ASN.1 DER codec, AES-CTR counter-overflow simulation, RSA/ECDH/HMAC/HKDF/PBKDF2
helpers) via a shallow embedding of the JavaScript sources into Lean.

Buffers are modelled as `List Nat` whose entries are byte values (each < 256,
as guaranteed by Node's `Buffer`).  JavaScript 32-bit bitwise operators
(`<<`, `|`, `&`), which coerce their operands with ToInt32 and produce signed
32-bit results, are modelled explicitly on `Int` (`jsShl8`, `jsOr`, `jsAnd`).
Exceptions are modelled with `Except JsErr`.
-/

namespace WebCrypto

/-- Error taxonomy of the library (`lib/errors.js`) together with the built-in
JavaScript error classes that the sources may raise. -/
inductive JsErr where
  | notSupported
  | invalidAccess
  | dataError
  | operationError
  | quotaExceeded
  | syntaxError
  | typeError
  | rangeError
  deriving DecidableEq, Repr

/-- JavaScript `ToUint32`: the unsigned 32-bit representative of an integer. -/
def u32 (a : Int) : Nat := (a % 4294967296).toNat

/-- JavaScript `ToInt32`: the signed 32-bit value with the same 32-bit pattern. -/
def int32 (a : Int) : Int :=
  if u32 a < 2147483648 then (u32 a : Int) else (u32 a : Int) - 4294967296

/-- JavaScript `x << 8` (operand coerced by ToInt32, result signed 32 bit). -/
def jsShl8 (a : Int) : Int := int32 ((u32 a : Int) * 256)

/-- JavaScript `x | y` on signed 32-bit integers (bitwise or of the patterns). -/
def jsOr (a b : Int) : Int := int32 (((u32 a) ||| (u32 b) : Nat) : Int)

/-- JavaScript `x & y` on signed 32-bit integers (bitwise and of the patterns). -/
def jsAnd (a b : Int) : Int := int32 (((u32 a) &&& (u32 b) : Nat) : Int)

theorem u32_eq_self {a : Int} (h0 : 0 ≤ a) (h : a < 4294967296) :
    (u32 a : Int) = a := by
  unfold u32
  rw [Int.emod_eq_of_lt h0 h, Int.toNat_of_nonneg h0]

theorem int32_eq_self {a : Int} (h0 : 0 ≤ a) (h : a < 2147483648) :
    int32 a = a := by
  unfold int32
  have hu : (u32 a : Int) = a := u32_eq_self h0 (by omega)
  have : u32 a < 2147483648 := by omega
  simp [this, hu]

theorem lor_mul256 (a b : Nat) (hb : b < 256) : (256 * a) ||| b = 256 * a + b := by
  apply Nat.eq_of_testBit_eq
  intro i
  rcases Nat.lt_or_ge i 8 with hi | hi
  · have hsh : 256 * a = a <<< 8 := by
      rw [Nat.shiftLeft_eq]; ring
    have h1 : (256 * a).testBit i = false := by
      rw [hsh, Nat.testBit_shiftLeft]
      simp [Nat.not_le.mpr hi]
    have h2 : (256 * a + b).testBit i = b.testBit i := by
      have hmod : (256 * a + b) % 256 = b := by omega
      have e1 : ((256 * a + b) % 2 ^ 8).testBit i = (256 * a + b).testBit i := by
        rw [Nat.testBit_mod_two_pow]; simp [hi]
      have e2 : ((b : Nat) % 2 ^ 8).testBit i = b.testBit i := by
        rw [Nat.testBit_mod_two_pow]; simp [hi]
      have : (256 * a + b) % 2 ^ 8 = b % 2 ^ 8 := by norm_num; omega
      rw [← e1, this, e2]
    rw [Nat.testBit_or, h1, h2]
    simp
  · have hb' : b.testBit i = false :=
      Nat.testBit_lt_two_pow (lt_of_lt_of_le hb (by
        calc (256 : Nat) = 2 ^ 8 := by norm_num
        _ ≤ 2 ^ i := Nat.pow_le_pow_right (by norm_num) hi))
    have hsh : 256 * a = a <<< 8 := by rw [Nat.shiftLeft_eq]; ring
    have h1 : (256 * a).testBit i = a.testBit (i - 8) := by
      rw [hsh, Nat.testBit_shiftLeft]; simp [hi]
    have h2 : (256 * a + b).testBit i = a.testBit (i - 8) := by
      rw [Nat.testBit_to_div_mod, Nat.testBit_to_div_mod]
      obtain ⟨j, hj⟩ : ∃ j, i = 8 + j := ⟨i - 8, by omega⟩
      subst hj
      have : (256 * a + b) / 2 ^ (8 + j) = a / 2 ^ j := by
        rw [pow_add, ← Nat.div_div_eq_div_mul]
        congr 1
        have h8 : (2 : Nat) ^ 8 = 256 := by norm_num
        rw [h8]
        omega
      rw [this]
      simp
    rw [Nat.testBit_or, h1, h2, hb']
    simp

theorem jsShl8_or_byte {a : Int} {b : Nat} (h0 : 0 ≤ a) (hb : b < 256)
    (h : a * 256 + b < 2147483648) : jsOr (jsShl8 a) (b : Int) = a * 256 + b := by
  have ha : a < 2147483648 := by nlinarith
  have ha256 : a * 256 < 2147483648 := by omega
  have hu : (u32 a : Int) = a := u32_eq_self h0 (by omega)
  have hsh : jsShl8 a = a * 256 := by
    unfold jsShl8
    rw [hu]
    exact int32_eq_self (by positivity) (by omega)
  rw [hsh]
  unfold jsOr
  have hu1 : (u32 (a * 256) : Int) = a * 256 := u32_eq_self (by positivity) (by omega)
  have hu2 : (u32 (b : Int) : Nat) = b := by
    have : (u32 (b : Int) : Int) = (b : Int) := u32_eq_self (by positivity) (by omega)
    omega
  have hnat : u32 (a * 256) = 256 * (u32 a) := by
    have : (u32 (a * 256) : Int) = 256 * (u32 a : Int) := by rw [hu1, hu]; ring
    omega
  rw [hnat, hu2, lor_mul256 _ _ hb]
  have : ((256 * u32 a + b : Nat) : Int) = a * 256 + b := by
    push_cast
    rw [hu]; ring
  rw [this]
  exact int32_eq_self (by omega) h

instance {ε α : Type} [DecidableEq ε] [DecidableEq α] : DecidableEq (Except ε α) :=
  fun x y =>
    match x, y with
    | .ok a, .ok b =>
        match decEq a b with
        | isTrue h => isTrue (h ▸ rfl)
        | isFalse h => isFalse fun hc => h (Except.ok.inj hc)
    | .error a, .error b =>
        match decEq a b with
        | isTrue h => isTrue (h ▸ rfl)
        | isFalse h => isFalse fun hc => h (Except.error.inj hc)
    | .ok _, .error _ => isFalse fun hc => Except.noConfusion hc
    | .error _, .ok _ => isFalse fun hc => Except.noConfusion hc

/-- JavaScript `buffer[i]` for an integer index: `none` models `undefined`
(out-of-bounds access), and an index of NaN (modelled by `none`) also yields
`undefined`. -/
def jsGetByte (buffer : List Nat) (off : Option Int) : Option Nat :=
  off.bind fun i => if i < 0 then none else buffer[i.toNat]?

/-- Clamp an index argument of `Buffer.prototype.slice`: negative values count
from the end of the buffer, and values beyond the length are clamped. -/
def jsSliceIdx (len : Nat) (i : Int) : Nat :=
  if i < 0 then ((len : Int) + i).toNat else min i.toNat len

/-- JavaScript `buffer.slice(s, e)` (Node `Buffer` semantics). -/
def jsSlice (buffer : List Nat) (s e : Int) : List Nat :=
  (buffer.take (jsSliceIdx buffer.length e)).drop (jsSliceIdx buffer.length s)

/-- Big-endian value of a byte string. -/
def beVal (bytes : List Nat) : Nat := bytes.foldl (fun a b => a * 256 + b) 0

/-!
ASN.1 DER SEQUENCE-of-INTEGER codec, embedded from `Asn1SequenceEncoder` and
`Asn1SequenceDecoder` in the utility module.  The encoder's `end()` is modelled
by `encodeSeq`, which concatenates the accumulated elements exactly as
`Buffer.concat([bTagSequence, len, ...this.elements])` does; the tracked
`this.length` equals the total byte length of the accumulated elements.
`encodeLength` models the source's `writeUInt32BE`-based long form, which is
defined (does not throw a RangeError) exactly for lengths below 2^32; all
theorems stay within that domain.
-/

namespace Asn1SequenceEncoder

/-- Length header: short form below 128; otherwise the four big-endian bytes of
the length with leading zero bytes removed, preceded by `0x80 | nBytes`. -/
def encodeLength (len : Nat) : List Nat :=
  if len < 128 then [len]
  else
    let bytes := [len / 16777216 % 256, len / 65536 % 256, len / 256 % 256, len % 256]
    let stripped := bytes.dropWhile (· = 0)
    (128 + stripped.length) :: stripped

/-- Number of leading bytes removed by the encoder's minimisation loop
`while (integer[i] === 0 && (integer[i + 1] & 0x80) === 0) i++`
(out-of-bounds reads yield `undefined`, which compares unequal to 0 and whose
bitwise and with 0x80 is 0). -/
def stripCount : List Nat → Nat
  | 0 :: rest => if (rest.headD 0) &&& 128 = 0 then stripCount rest + 1 else 0
  | _ => 0

/-- Bytes appended to the sequence for one `unsignedInteger(integer)` call:
a zero pad byte is inserted when the most significant bit is set, otherwise
redundant leading zero bytes are removed. -/
def unsignedInteger (integer : List Nat) : List Nat :=
  if (integer.headD 0) &&& 128 ≠ 0 then
    2 :: encodeLength (integer.length + 1) ++ 0 :: integer
  else
    let i := stripCount integer
    2 :: encodeLength (integer.length - i) ++ integer.drop i

/-- The encoder's `end()`: tag, encoded total length, then all elements. -/
def encodeSeq (integers : List (List Nat)) : List Nat :=
  let content := (integers.map unsignedInteger).flatten
  48 :: encodeLength content.length ++ content

end Asn1SequenceEncoder

/-- Decoder state: the buffer and the current offset (`none` models an offset
that has become NaN through arithmetic with `undefined`). -/
structure DecState where
  buffer : List Nat
  offset : Option Int
  deriving DecidableEq, Repr

namespace Asn1SequenceDecoder

/-- Accumulator loop of the long-form branch of `decodeLength`:
`length = (length << 8) | this.buffer[this.offset + i]`, where an
out-of-bounds byte (`undefined`) is coerced to 0 by `|`. -/
def longAcc (buffer : List Nat) (base : Option Int) : Nat → Int → Int
  | 0, acc => acc
  | n + 1, acc =>
      longAcc buffer (base.map (· + 1)) n
        (jsOr (jsShl8 acc) (((jsGetByte buffer base).getD 0 : Nat) : Int))

/-- The decoder's `decodeLength()`.  Returns the decoded length (`none` models
`undefined`, which arises when the first length byte is out of bounds) and the
advanced state. -/
def decodeLength (s : DecState) : Option Int × DecState :=
  match jsGetByte s.buffer s.offset with
  | none => (none, { s with offset := s.offset.map (· + 1) })
  | some l =>
      let off1 := s.offset.map (· + 1)
      if l &&& 128 = 0 then
        (some (l : Int), { s with offset := off1 })
      else
        let n := l &&& 127
        (some (longAcc s.buffer off1 n 0), { s with offset := off1.map (· + n) })

/-- The decoder's constructor: checks the SEQUENCE tag, decodes the declared
length and fails with a `DataError` unless it equals the number of remaining
bytes.  (When `decodeLength` returns `undefined`, the strict inequality
`len !== buffer.length - this.offset` holds and the constructor throws.) -/
def mk (buffer : List Nat) : Except JsErr DecState :=
  if buffer[0]? = some 48 then
    let s0 : DecState := ⟨buffer, some 1⟩
    let (lenOpt, s1) := decodeLength s0
    match lenOpt, s1.offset with
    | some len, some off =>
        if len = (buffer.length : Int) - off then .ok s1 else .error .dataError
    | _, _ => .error .dataError
  else .error .dataError

/-- The decoder's `unsignedInteger()`: checks the INTEGER tag, decodes the
length, strips at most one leading zero byte, and slices out the content.
When the decoded length is `undefined`, `length--` yields NaN, the slice
`slice(offset, offset + NaN)` is empty and the offset becomes NaN. -/
def unsignedInteger (s : DecState) : Except JsErr (List Nat × DecState) :=
  if jsGetByte s.buffer s.offset = some 2 then
    let s1 : DecState := { s with offset := s.offset.map (· + 1) }
    let (lenOpt, s2) := decodeLength s1
    let lenOpt' := if jsGetByte s.buffer s2.offset = some 0 then lenOpt.map (· - 1) else lenOpt
    let off3 := if jsGetByte s.buffer s2.offset = some 0 then s2.offset.map (· + 1) else s2.offset
    match lenOpt', off3 with
    | some len, some off =>
        .ok (jsSlice s.buffer off (off + len), { s with offset := some (off + len) })
    | _, _ => .ok ([], { s with offset := none })
  else .error .dataError

/-- The decoder's `end()`: fails unless the offset equals the buffer length
(a NaN offset compares unequal and also fails). -/
def endCheck (s : DecState) : Except JsErr Unit :=
  match s.offset with
  | some off => if off = (s.buffer.length : Int) then .ok () else .error .dataError
  | none => .error .dataError

end Asn1SequenceDecoder

/-- Decoding a sequence that holds a single INTEGER, as the round-trip property
in the specification uses it: construct the decoder, read one unsigned integer
and check `end()`. -/
def decodeOneIntegerSeq (buffer : List Nat) : Except JsErr (List Nat) := do
  let s ← Asn1SequenceDecoder.mk buffer
  let (r, s) ← Asn1SequenceDecoder.unsignedInteger s
  Asn1SequenceDecoder.endCheck s
  pure r

example : decodeOneIntegerSeq (Asn1SequenceEncoder.encodeSeq [[5]]) = .ok [5] := by decide

example : decodeOneIntegerSeq (Asn1SequenceEncoder.encodeSeq [[0, 5]]) = .ok [5] := by decide

example : decodeOneIntegerSeq (Asn1SequenceEncoder.encodeSeq [[128]]) = .ok [128] := by decide

example : decodeOneIntegerSeq (Asn1SequenceEncoder.encodeSeq [[]]) = .ok [] := by decide

example : decodeOneIntegerSeq [48, 5, 2, 3, 0, 0, 5] = .ok [0, 5] := by decide

theorem and_128_of_lt {n : Nat} (h : n < 128) : n &&& 128 = 0 := by
  have hall : ∀ m : Fin 128, m.val &&& 128 = 0 := by decide
  exact hall ⟨n, h⟩

theorem header_and {L : Nat} (h : L < 128) :
    ((128 + L) &&& 128 ≠ 0) ∧ ((128 + L) &&& 127 = L) := by
  have hall : ∀ m : Fin 128, ((128 + m.val) &&& 128 ≠ 0) ∧ ((128 + m.val) &&& 127 = m.val) := by
    decide
  exact hall ⟨L, h⟩

theorem jsGetByte_append (pre rest : List Nat) (b : Nat) :
    jsGetByte (pre ++ b :: rest) (some (pre.length : Int)) = some b := by
  unfold jsGetByte
  rw [Option.some_bind, if_neg (by omega)]
  have ht : ((pre.length : Int)).toNat = pre.length := Int.toNat_natCast _
  rw [ht, List.getElem?_append_right (le_refl _)]
  simp

theorem jsGetByte_ge (buffer : List Nat) (i : Int) (h : (buffer.length : Int) ≤ i) :
    jsGetByte buffer (some i) = none := by
  unfold jsGetByte
  rw [Option.some_bind, if_neg (by omega)]
  apply List.getElem?_eq_none
  omega

theorem foldlStep_nonneg (bs : List Nat) :
    ∀ a : Int, 0 ≤ a → 0 ≤ bs.foldl (fun (x : Int) (b : Nat) => x * 256 + (b : Int)) a := by
  induction bs with
  | nil => intro a h; simpa using h
  | cons b t ih =>
      intro a h
      simp only [List.foldl_cons]
      exact ih _ (by positivity)

theorem foldlStep_ge (bs : List Nat) :
    ∀ a : Int, 0 ≤ a → a ≤ bs.foldl (fun (x : Int) (b : Nat) => x * 256 + (b : Int)) a := by
  induction bs with
  | nil => intro a _; simp
  | cons b t ih =>
      intro a h
      simp only [List.foldl_cons]
      have h1 : a ≤ a * 256 + (b : Int) := by
        have hb : (0 : Int) ≤ (b : Int) := Int.natCast_nonneg b
        nlinarith
      exact le_trans h1 (ih _ (by positivity))

theorem foldlStep_cast (bs : List Nat) :
    ∀ a : Nat, bs.foldl (fun (x : Int) (b : Nat) => x * 256 + (b : Int)) (a : Int)
      = ((bs.foldl (fun x b => x * 256 + b) a : Nat) : Int) := by
  induction bs with
  | nil => intro a; simp
  | cons b t ih =>
      intro a
      simp only [List.foldl_cons]
      have : (a : Int) * 256 + (b : Int) = ((a * 256 + b : Nat) : Int) := by push_cast; ring
      rw [this, ih]

theorem beVal_int (bs : List Nat) :
    bs.foldl (fun (x : Int) (b : Nat) => x * 256 + (b : Int)) 0 = ((beVal bs : Nat) : Int) := by
  have := foldlStep_cast bs 0
  simpa [beVal] using this

theorem longAcc_spec (bs : List Nat) :
    ∀ (pre post : List Nat) (acc : Int), (∀ x ∈ bs, x < 256) → 0 ≤ acc →
    bs.foldl (fun (x : Int) (b : Nat) => x * 256 + (b : Int)) acc < 2147483648 →
    Asn1SequenceDecoder.longAcc (pre ++ bs ++ post) (some (pre.length : Int)) bs.length acc
      = bs.foldl (fun (x : Int) (b : Nat) => x * 256 + (b : Int)) acc := by
  induction bs with
  | nil =>
      intro pre post acc _ _ _
      simp [Asn1SequenceDecoder.longAcc]
  | cons b t ih =>
      intro pre post acc hb hacc hbound
      simp only [List.length_cons, List.foldl_cons] at *
      unfold Asn1SequenceDecoder.longAcc
      have hlist : pre ++ (b :: t) ++ post = pre ++ b :: (t ++ post) := by simp
      rw [hlist, jsGetByte_append]
      simp only [Option.getD_some, Option.map_some']
      have hble : acc * 256 + (b : Int) < 2147483648 :=
        lt_of_le_of_lt (foldlStep_ge t _ (by positivity)) hbound
      have hstep : jsOr (jsShl8 acc) (b : Int) = acc * 256 + (b : Int) :=
        jsShl8_or_byte hacc (hb b (by simp)) hble
      rw [hstep]
      have hlist2 : pre ++ b :: (t ++ post) = (pre ++ [b]) ++ t ++ post := by simp
      have hlen : (pre.length : Int) + 1 = (((pre ++ [b]).length : Nat) : Int) := by
        simp
      rw [hlist2, hlen]
      exact ih (pre ++ [b]) post (acc * 256 + b)
        (fun x hx => hb x (by simp [hx])) (by positivity) hbound

theorem beVal_dropWhile_zero (l : List Nat) :
    beVal (l.dropWhile (· = 0)) = beVal l := by
  induction l with
  | nil => simp
  | cons b t ih =>
      by_cases hb : b = 0
      · subst hb
        rw [List.dropWhile_cons_of_pos (by simp)]
        rw [ih]
        show beVal t = List.foldl (fun a b => a * 256 + b) (0 * 256 + 0) t
        norm_num [beVal]
      · rw [List.dropWhile_cons_of_neg (by simp [hb])]

theorem beVal_fourBytes {n : Nat} (h : n < 4294967296) :
    beVal [n / 16777216 % 256, n / 65536 % 256, n / 256 % 256, n % 256] = n := by
  unfold beVal
  simp only [List.foldl_cons, List.foldl_nil]
  omega

theorem decodeLength_encodeLength (pre rest : List Nat) (n : Nat) (hn : n < 2147483648) :
    Asn1SequenceDecoder.decodeLength
        ⟨pre ++ Asn1SequenceEncoder.encodeLength n ++ rest, some (pre.length : Int)⟩
      = (some (n : Int),
         ⟨pre ++ Asn1SequenceEncoder.encodeLength n ++ rest,
          some ((pre.length : Int) + ((Asn1SequenceEncoder.encodeLength n).length : Int))⟩) := by
  by_cases h : n < 128
  · have henc : Asn1SequenceEncoder.encodeLength n = [n] := by
      simp [Asn1SequenceEncoder.encodeLength, h]
    rw [henc]
    have hl : pre ++ [n] ++ rest = pre ++ n :: rest := by simp
    rw [hl]
    unfold Asn1SequenceDecoder.decodeLength
    rw [jsGetByte_append]
    simp [and_128_of_lt h]
  · set bytes4 : List Nat :=
      [n / 16777216 % 256, n / 65536 % 256, n / 256 % 256, n % 256] with hbytes4
    set stripped := bytes4.dropWhile (· = 0) with hstripped
    have henc : Asn1SequenceEncoder.encodeLength n = (128 + stripped.length) :: stripped := by
      simp [Asn1SequenceEncoder.encodeLength, h, hbytes4, hstripped]
    have hL : stripped.length < 128 := by
      have h4 : stripped.length ≤ bytes4.length := (List.dropWhile_sublist _).length_le
      simp [hbytes4] at h4
      omega
    have hbeVal : beVal stripped = n := by
      rw [hstripped, beVal_dropWhile_zero, hbytes4]
      exact beVal_fourBytes (by omega)
    have hmem : ∀ x ∈ stripped, x < 256 := by
      intro x hx
      have hx4 : x ∈ bytes4 := (List.dropWhile_sublist _).mem hx
      simp only [hbytes4, List.mem_cons, List.not_mem_nil, or_false] at hx4
      rcases hx4 with h1 | h1 | h1 | h1 <;> subst h1 <;> omega
    rw [henc]
    have hl : pre ++ ((128 + stripped.length) :: stripped) ++ rest
        = pre ++ (128 + stripped.length) :: (stripped ++ rest) := by simp
    rw [hl]
    unfold Asn1SequenceDecoder.decodeLength
    rw [jsGetByte_append]
    simp only [Option.map_some']
    rw [if_neg (by simpa using (header_and hL).1)]
    rw [(header_and hL).2]
    have hfold : stripped.foldl (fun (x : Int) (b : Nat) => x * 256 + (b : Int)) 0 = (n : Int) := by
      rw [beVal_int, hbeVal]
    have hacc : Asn1SequenceDecoder.longAcc
        (pre ++ (128 + stripped.length) :: (stripped ++ rest))
        (some ((pre.length : Int) + 1)) stripped.length 0 = (n : Int) := by
      have hlist2 : pre ++ (128 + stripped.length) :: (stripped ++ rest)
          = (pre ++ [128 + stripped.length]) ++ stripped ++ rest := by simp
      have hlen : (pre.length : Int) + 1 = (((pre ++ [128 + stripped.length]).length : Nat) : Int) := by
        simp
      rw [hlist2, hlen, longAcc_spec stripped _ rest 0 hmem (le_refl 0) (by rw [hfold]; omega)]
      exact hfold
    rw [hacc]
    simp only [Prod.mk.injEq, DecState.mk.injEq, Option.some.injEq, true_and, and_true]
    simp only [List.length_cons]
    push_cast
    ring

theorem jsSlice_append (A mid post : List Nat) :
    jsSlice (A ++ mid ++ post) (A.length : Int) ((A.length : Int) + (mid.length : Int)) = mid := by
  unfold jsSlice jsSliceIdx
  have hlen : (A ++ mid ++ post).length = A.length + mid.length + post.length := by
    simp; omega
  rw [if_neg (by omega), if_neg (by omega)]
  have h1 : ((A.length : Int) + (mid.length : Int)).toNat = A.length + mid.length := by omega
  have h2 : ((A.length : Int)).toNat = A.length := by omega
  rw [h1, h2, hlen]
  have hmin1 : min (A.length + mid.length) (A.length + mid.length + post.length)
      = A.length + mid.length := by omega
  have hmin2 : min A.length (A.length + mid.length + post.length) = A.length := by omega
  rw [hmin1, hmin2]
  have ht : (A ++ mid ++ post).take (A.length + mid.length) = A ++ mid := by
    have hassoc : A ++ mid ++ post = (A ++ mid) ++ post := by simp
    rw [hassoc]
    have hl : A.length + mid.length = (A ++ mid).length := by simp
    rw [hl, List.take_left]
  rw [ht]
  exact List.drop_left A mid

theorem jsSlice_of_le_start (l : List Nat) (s e : Int) (h0 : 0 ≤ e) (hle : e ≤ s) :
    jsSlice l s e = [] := by
  unfold jsSlice jsSliceIdx
  rw [if_neg (by omega), if_neg (by omega)]
  apply List.drop_eq_nil_of_le
  have hlt : (l.take (min e.toNat l.length)).length = min (min e.toNat l.length) l.length := by
    simp
  rw [hlt]
  have : e.toNat ≤ s.toNat := by omega
  omega

theorem unsignedInteger_elem (pre content post : List Nat)
    (hlen : content.length < 2147483648) :
    Asn1SequenceDecoder.unsignedInteger
        ⟨pre ++ (2 :: Asn1SequenceEncoder.encodeLength content.length ++ content) ++ post,
         some (pre.length : Int)⟩
      = .ok (if content.headD 1 = 0 then content.tail else content,
             ⟨pre ++ (2 :: Asn1SequenceEncoder.encodeLength content.length ++ content) ++ post,
              some ((pre.length : Int) + (1 + ((Asn1SequenceEncoder.encodeLength content.length).length : Int) + (content.length : Int)))⟩) := by
  set enc := Asn1SequenceEncoder.encodeLength content.length with henc
  set buffer := pre ++ (2 :: enc ++ content) ++ post with hbuffer
  have h1 : jsGetByte buffer (some (pre.length : Int)) = some 2 := by
    rw [hbuffer]
    have : pre ++ (2 :: enc ++ content) ++ post = pre ++ 2 :: (enc ++ (content ++ post)) := by
      simp
    rw [this]
    exact jsGetByte_append pre _ 2
  have h2 : Asn1SequenceDecoder.decodeLength ⟨buffer, some ((pre.length : Int) + 1)⟩
      = (some (content.length : Int),
         ⟨buffer, some ((pre.length : Int) + 1 + (enc.length : Int))⟩) := by
    have hshape : buffer = (pre ++ [2]) ++ enc ++ (content ++ post) := by
      rw [hbuffer]; simp
    have hoff : (pre.length : Int) + 1 = (((pre ++ [2]).length : Nat) : Int) := by simp
    rw [hshape, hoff, henc]
    have := decodeLength_encodeLength (pre ++ [2]) (content ++ post) content.length hlen
    rw [this]
  simp only [Asn1SequenceDecoder.unsignedInteger, h1, if_pos, Option.map_some']
  rw [h2]
  simp only
  rcases hc : content with _ | ⟨c0, ctail⟩
  · -- content = []; encodeLength 0 = [0]
    have hENC : enc = [0] := by rw [henc, hc]; decide
    simp only [List.length_nil, Nat.cast_zero, List.headD_nil, List.tail_nil]
    by_cases hpost : jsGetByte buffer (some ((pre.length : Int) + 1 + (enc.length : Int))) = some 0
    · rw [if_pos hpost, if_pos hpost]
      simp only [Option.map_some']
      have hsl : jsSlice buffer ((pre.length : Int) + 1 + (enc.length : Int) + 1)
          ((pre.length : Int) + 1 + (enc.length : Int) + 1 + ((0 : Int) - 1)) = [] := by
        apply jsSlice_of_le_start
        · omega
        · omega
      rw [hsl, if_neg (by norm_num : ¬(1 : Nat) = 0)]
      have hoffEq : (pre.length : Int) + 1 + (enc.length : Int) + 1 + ((0 : Int) - 1)
          = (pre.length : Int) + (1 + (enc.length : Int) + 0) := by ring
      rw [hoffEq]
    · rw [if_neg hpost, if_neg hpost]
      simp only [Nat.cast_ofNat]
      have hsl : jsSlice buffer ((pre.length : Int) + 1 + (enc.length : Int))
          ((pre.length : Int) + 1 + (enc.length : Int) + (0 : Int)) = [] := by
        apply jsSlice_of_le_start
        · omega
        · omega
      rw [hsl, if_neg (by norm_num : ¬(1 : Nat) = 0)]
      have hoffEq : (pre.length : Int) + 1 + (enc.length : Int) + (0 : Int)
          = (pre.length : Int) + (1 + (enc.length : Int) + 0) := by ring
      rw [hoffEq]
  · -- content = c0 :: ctail
    simp only [List.length_cons, Nat.cast_add, Nat.cast_one, List.headD_cons, List.tail_cons]
    by_cases hc0 : c0 = 0
    · subst hc0
      have hpost : jsGetByte buffer (some ((pre.length : Int) + 1 + (enc.length : Int))) = some 0 := by
        have hshape : buffer = (pre ++ 2 :: enc) ++ 0 :: (ctail ++ post) := by
          rw [hbuffer, hc]; simp
        have hoff : (pre.length : Int) + 1 + (enc.length : Int)
            = (((pre ++ 2 :: enc).length : Nat) : Int) := by simp; ring
        rw [hshape, hoff]
        exact jsGetByte_append _ _ 0
      rw [if_pos hpost, if_pos hpost]
      simp only [Option.map_some']
      have hsl : jsSlice buffer ((pre.length : Int) + 1 + (enc.length : Int) + 1)
          ((pre.length : Int) + 1 + (enc.length : Int) + 1 + (((ctail.length : Int) + 1) - 1)) = ctail := by
        have hshape : buffer = (pre ++ 2 :: enc ++ [0]) ++ ctail ++ post := by
          rw [hbuffer, hc]; simp
        have hoff : (pre.length : Int) + 1 + (enc.length : Int) + 1
            = (((pre ++ 2 :: enc ++ [0]).length : Nat) : Int) := by simp; ring
        rw [hshape, hoff]
        have hoff2 : (((pre ++ 2 :: enc ++ [0]).length : Nat) : Int) + ((ctail.length : Int) + 1 - 1)
            = (((pre ++ 2 :: enc ++ [0]).length : Nat) : Int) + ((ctail.length : Nat) : Int) := by
          ring
        rw [hoff2]
        exact jsSlice_append _ _ _
      rw [hsl]
      have hoffEq : (pre.length : Int) + 1 + (enc.length : Int) + 1 + ((ctail.length : Int) + 1 - 1)
          = (pre.length : Int) + (1 + (enc.length : Int) + ((ctail.length : Int) + 1)) := by ring
      rw [hoffEq]
      simp
    · have hpost : jsGetByte buffer (some ((pre.length : Int) + 1 + (enc.length : Int))) = some c0 := by
        have hshape : buffer = (pre ++ 2 :: enc) ++ c0 :: (ctail ++ post) := by
          rw [hbuffer, hc]; simp
        have hoff : (pre.length : Int) + 1 + (enc.length : Int)
            = (((pre ++ 2 :: enc).length : Nat) : Int) := by simp; ring
        rw [hshape, hoff]
        exact jsGetByte_append _ _ c0
      have hne : ¬(jsGetByte buffer (some ((pre.length : Int) + 1 + (enc.length : Int))) = some 0) := by
        rw [hpost]
        simp [hc0]
      rw [if_neg hne, if_neg hne]
      show Except.ok (jsSlice buffer ((pre.length : Int) + 1 + (enc.length : Int))
            ((pre.length : Int) + 1 + (enc.length : Int) + ((ctail.length : Int) + 1)),
          ({ buffer := buffer,
             offset := some ((pre.length : Int) + 1 + (enc.length : Int) + ((ctail.length : Int) + 1)) } : DecState))
        = _
      have hsl : jsSlice buffer ((pre.length : Int) + 1 + (enc.length : Int))
          ((pre.length : Int) + 1 + (enc.length : Int) + ((ctail.length : Int) + 1)) = c0 :: ctail := by
        have hshape : buffer = (pre ++ 2 :: enc) ++ (c0 :: ctail) ++ post := by
          rw [hbuffer, hc]; simp
        have hoff : (pre.length : Int) + 1 + (enc.length : Int)
            = (((pre ++ 2 :: enc).length : Nat) : Int) := by simp; ring
        rw [hshape, hoff]
        have hoff2 : (((pre ++ 2 :: enc).length : Nat) : Int) + ((ctail.length : Int) + 1)
            = (((pre ++ 2 :: enc).length : Nat) : Int) + (((c0 :: ctail).length : Nat) : Int) := by
          push_cast [List.length_cons]; ring
        rw [hoff2]
        exact jsSlice_append _ _ _
      rw [hsl]
      have hoffEq : (pre.length : Int) + 1 + (enc.length : Int) + ((ctail.length : Int) + 1)
          = (pre.length : Int) + (1 + (enc.length : Int) + ((ctail.length : Int) + 1)) := by ring
      rw [hoffEq]
      simp [hc0]

theorem mk_wellFormed (content : List Nat) (hlen : content.length < 2147483648) :
    Asn1SequenceDecoder.mk (48 :: Asn1SequenceEncoder.encodeLength content.length ++ content)
      = .ok ⟨48 :: Asn1SequenceEncoder.encodeLength content.length ++ content,
             some (1 + ((Asn1SequenceEncoder.encodeLength content.length).length : Int))⟩ := by
  unfold Asn1SequenceDecoder.mk
  rw [if_pos (by simp)]
  have hshape : 48 :: Asn1SequenceEncoder.encodeLength content.length ++ content
      = [48] ++ Asn1SequenceEncoder.encodeLength content.length ++ content := by simp
  have hoff : (1 : Int) = (([48] : List Nat).length : Int) := by simp
  rw [hshape, hoff]
  simp only [decodeLength_encodeLength [48] content content.length hlen]
  rw [if_pos (by
    simp only [List.length_append, List.length_singleton]
    push_cast
    ring)]

theorem mk_trailing (body junk : List Nat) (hlen : body.length < 2147483648)
    (hj : junk ≠ []) :
    Asn1SequenceDecoder.mk
        (48 :: Asn1SequenceEncoder.encodeLength body.length ++ (body ++ junk))
      = .error .dataError := by
  unfold Asn1SequenceDecoder.mk
  rw [if_pos (by simp)]
  have hshape : 48 :: Asn1SequenceEncoder.encodeLength body.length ++ (body ++ junk)
      = [48] ++ Asn1SequenceEncoder.encodeLength body.length ++ (body ++ junk) := by simp
  have hoff : (1 : Int) = (([48] : List Nat).length : Int) := by simp
  rw [hshape, hoff]
  simp only [decodeLength_encodeLength [48] (body ++ junk) body.length hlen]
  rw [if_neg (by
    simp only [List.length_append, List.length_singleton]
    have hjl : 0 < junk.length := List.length_pos.mpr hj
    push_cast
    omega)]

theorem encodeLength_length_le (n : Nat) :
    (Asn1SequenceEncoder.encodeLength n).length ≤ 5 := by
  unfold Asn1SequenceEncoder.encodeLength
  by_cases h : n < 128
  · simp [h]
  · simp only [h, if_false]
    have := (List.dropWhile_sublist
      (l := [n / 16777216 % 256, n / 65536 % 256, n / 256 % 256, n % 256])
      (p := (· = 0))).length_le
    simp only [List.length_cons]
    simp at this
    omega

theorem stripCount_eq_zero {b : List Nat} (h : b.headD 0 ≠ 0) :
    Asn1SequenceEncoder.stripCount b = 0 := by
  cases b with
  | nil => rfl
  | cons hd t =>
      cases hd with
      | zero => simp at h
      | succ m => rfl

/-- The element bytes produced by the encoder for a minimal-form input (empty,
or nonzero first byte) are the canonical element of the input itself; for an
input with the most significant bit set they are the canonical element of the
zero-padded input. -/
theorem encoder_element_eq (b : List Nat) (hmin : b = [] ∨ b.headD 0 ≠ 0) :
    Asn1SequenceEncoder.unsignedInteger b
      = (if b.head?.getD 0 &&& 128 = 0 then
          2 :: Asn1SequenceEncoder.encodeLength b.length ++ b
         else
          2 :: Asn1SequenceEncoder.encodeLength ((0 :: b).length) ++ (0 :: b)) := by
  have hstrip : Asn1SequenceEncoder.stripCount b = 0 := by
    rcases hmin with h1 | h1
    · subst h1; rfl
    · exact stripCount_eq_zero h1
  unfold Asn1SequenceEncoder.unsignedInteger
  by_cases h : b.head?.getD 0 &&& 128 = 0
  · simp [h, hstrip]
  · simp [h]

theorem endCheck_ok_of_eq (buf : List Nat) (off : Int) (h : off = (buf.length : Int)) :
    Asn1SequenceDecoder.endCheck ⟨buf, some off⟩ = .ok () := by
  show (if off = (buf.length : Int) then (.ok () : Except JsErr Unit) else .error .dataError)
      = .ok ()
  rw [if_pos h]

theorem endCheck_error_of_ne (buf : List Nat) (off : Int) (h : off ≠ (buf.length : Int)) :
    Asn1SequenceDecoder.endCheck ⟨buf, some off⟩ = .error .dataError := by
  show (if off = (buf.length : Int) then (.ok () : Except JsErr Unit) else .error .dataError)
      = .error .dataError
  rw [if_neg h]

/-- C4 (amended): round-trip for minimal unsigned-integer byte strings.
Encoding an integer whose byte string is empty or has a nonzero leading byte
(covering in particular all values whose most significant bit is set, which
receive a zero pad byte, and values of any length up to the 2^30 bound imposed
by the 32-bit length header) and then decoding the sequence reproduces the
original bytes exactly. -/
theorem c4_asn1_roundtrip_minimal (b : List Nat) (hbytes : ∀ x ∈ b, x < 256)
    (hmin : b = [] ∨ b.headD 0 ≠ 0) (hlen : b.length < 1073741824) :
    decodeOneIntegerSeq (Asn1SequenceEncoder.encodeSeq [b]) = .ok b := by
  have helem := encoder_element_eq b hmin
  have hseq : Asn1SequenceEncoder.encodeSeq [b]
      = 48 :: Asn1SequenceEncoder.encodeLength (Asn1SequenceEncoder.unsignedInteger b).length
          ++ Asn1SequenceEncoder.unsignedInteger b := by
    simp [Asn1SequenceEncoder.encodeSeq]
  have hpre : (1 : Int) + ((Asn1SequenceEncoder.encodeLength
        (Asn1SequenceEncoder.unsignedInteger b).length).length : Int)
      = (((48 :: Asn1SequenceEncoder.encodeLength
          (Asn1SequenceEncoder.unsignedInteger b).length).length : Nat) : Int) := by
    simp only [List.length_cons]
    push_cast
    ring
  by_cases hmsb : ¬(b.head?.getD 0 &&& 128 = 0)
  · rw [if_neg hmsb] at helem
    have hplen : (0 :: b).length < 2147483648 := by simp; omega
    have helen : (Asn1SequenceEncoder.unsignedInteger b).length < 2147483648 := by
      rw [helem]
      have := encodeLength_length_le (b.length + 1)
      simp only [List.length_cons, List.length_append]
      omega
    have hbody : 48 :: Asn1SequenceEncoder.encodeLength
          (Asn1SequenceEncoder.unsignedInteger b).length ++ Asn1SequenceEncoder.unsignedInteger b
        = (48 :: Asn1SequenceEncoder.encodeLength (Asn1SequenceEncoder.unsignedInteger b).length)
            ++ (2 :: Asn1SequenceEncoder.encodeLength ((0 :: b).length) ++ (0 :: b)) ++ [] := by
      rw [helem]; simp
    have hres : (if (0 :: b).headD 1 = 0 then (0 :: b).tail else 0 :: b) = b := by
      simp
    have hend := endCheck_ok_of_eq
        ((48 :: Asn1SequenceEncoder.encodeLength (Asn1SequenceEncoder.unsignedInteger b).length)
            ++ (2 :: Asn1SequenceEncoder.encodeLength ((0 :: b).length) ++ (0 :: b)) ++ [])
        ((((48 :: Asn1SequenceEncoder.encodeLength
            (Asn1SequenceEncoder.unsignedInteger b).length).length : Nat) : Int)
          + (1 + ((Asn1SequenceEncoder.encodeLength ((0 :: b).length)).length : Int)
             + (((0 :: b).length : Nat) : Int)))
        (by
          simp only [List.length_append, List.length_cons, List.length_nil]
          push_cast
          ring)
    unfold decodeOneIntegerSeq
    rw [hseq, mk_wellFormed _ helen]
    simp only [bind, Except.bind]
    rw [hpre, hbody, unsignedInteger_elem _ (0 :: b) [] hplen]
    simp only [hres, hend, bind, Except.bind, pure, Except.pure]
  · rw [if_pos (not_not.mp hmsb)] at helem
    have hplen : b.length < 2147483648 := by omega
    have helen : (Asn1SequenceEncoder.unsignedInteger b).length < 2147483648 := by
      rw [helem]
      have := encodeLength_length_le b.length
      simp only [List.length_cons, List.length_append]
      omega
    have hbody : 48 :: Asn1SequenceEncoder.encodeLength
          (Asn1SequenceEncoder.unsignedInteger b).length ++ Asn1SequenceEncoder.unsignedInteger b
        = (48 :: Asn1SequenceEncoder.encodeLength (Asn1SequenceEncoder.unsignedInteger b).length)
            ++ (2 :: Asn1SequenceEncoder.encodeLength b.length ++ b) ++ [] := by
      rw [helem]; simp
    have hres : (if b.headD 1 = 0 then b.tail else b) = b := by
      rcases hmin with h1 | h1
      · subst h1; simp
      · rw [if_neg (by
          cases b with
          | nil => simp
          | cons hd t => simpa using h1)]
    have hend := endCheck_ok_of_eq
        ((48 :: Asn1SequenceEncoder.encodeLength (Asn1SequenceEncoder.unsignedInteger b).length)
            ++ (2 :: Asn1SequenceEncoder.encodeLength b.length ++ b) ++ [])
        ((((48 :: Asn1SequenceEncoder.encodeLength
            (Asn1SequenceEncoder.unsignedInteger b).length).length : Nat) : Int)
          + (1 + ((Asn1SequenceEncoder.encodeLength b.length).length : Int)
             + ((b.length : Nat) : Int)))
        (by
          simp only [List.length_append, List.length_cons, List.length_nil]
          push_cast
          ring)
    unfold decodeOneIntegerSeq
    rw [hseq, mk_wellFormed _ helen]
    simp only [bind, Except.bind]
    rw [hpre, hbody, unsignedInteger_elem _ b [] hplen]
    simp only [hres, hend, bind, Except.bind, pure, Except.pure]

/-- C4 counterexample: the claim fails as stated for the byte string
`[0x00, 0x05]` — the encoder strips the redundant leading zero byte of a
non-minimal unsigned-integer representation, so encoding then decoding yields
`[0x05]`, not the original bytes. -/
theorem c4_roundtrip_counterexample :
    decodeOneIntegerSeq (Asn1SequenceEncoder.encodeSeq [[0, 5]]) = .ok [5] ∧
    decodeOneIntegerSeq (Asn1SequenceEncoder.encodeSeq [[0, 5]]) ≠ .ok [0, 5] := by
  decide

/-- Witness for `c4_asn1_roundtrip_minimal` at the concrete input `[0x80]`
(most significant bit set, so the encoder inserts a pad byte). -/
theorem c4_asn1_roundtrip_minimal_witness :
    decodeOneIntegerSeq (Asn1SequenceEncoder.encodeSeq [[128]]) = .ok [128] :=
  c4_asn1_roundtrip_minimal [128] (by decide) (Or.inr (by decide)) (by decide)

/-- C5 (amended): the decoder never rejects a non-minimal INTEGER encoding.
On any INTEGER element (tag byte 0x02, well-formed length header, content
bytes), `unsignedInteger` succeeds; it strips exactly one leading zero byte
whenever the first content byte is zero — regardless of whether the following
byte's most significant bit is set — and returns the content unchanged
otherwise.  In particular an element with two leading zero bytes, or with one
leading zero byte followed by a byte whose most significant bit is clear, is
accepted, not rejected with a `DataError`. -/
theorem c5_decoder_accepts_nonminimal (pre content post : List Nat)
    (hlen : content.length < 2147483648) :
    Asn1SequenceDecoder.unsignedInteger
        ⟨pre ++ (2 :: Asn1SequenceEncoder.encodeLength content.length ++ content) ++ post,
         some (pre.length : Int)⟩
      = .ok (if content.headD 1 = 0 then content.tail else content,
             ⟨pre ++ (2 :: Asn1SequenceEncoder.encodeLength content.length ++ content) ++ post,
              some ((pre.length : Int)
                + (1 + ((Asn1SequenceEncoder.encodeLength content.length).length : Int)
                   + (content.length : Int)))⟩) :=
  unsignedInteger_elem pre content post hlen

/-- C5 counterexample: a SEQUENCE holding the INTEGER encoding
`02 03 00 00 05` (content with two leading zero bytes, a violation of
minimal-length encoding) is decoded successfully to `[0x00, 0x05]` instead of
being rejected with a `DataError`. -/
theorem c5_counterexample :
    decodeOneIntegerSeq [48, 5, 2, 3, 0, 0, 5] = .ok [0, 5] := by
  decide

/-- Witness for `c5_decoder_accepts_nonminimal` on the concrete buffer
`30 05 02 03 00 00 05` at offset 2. -/
theorem c5_decoder_accepts_nonminimal_witness :
    Asn1SequenceDecoder.unsignedInteger ⟨[48, 5, 2, 3, 0, 0, 5], some 2⟩
      = .ok ([0, 5], ⟨[48, 5, 2, 3, 0, 0, 5], some 7⟩) := by
  have h := c5_decoder_accepts_nonminimal [48, 5] [0, 0, 5] [] (by decide)
  exact h

/-- C6: the decoder fails with a `DataError` whenever the declared SEQUENCE
length does not exactly match the bytes present or consumed: a buffer with
trailing bytes beyond the declared sequence length is rejected by the
constructor, and `end()` rejects any offset other than the exact buffer
length (so elements that do not consume exactly the declared length are
rejected there). -/
theorem c6_decoder_length_exact :
    (∀ body junk : List Nat, body.length < 2147483648 → junk ≠ [] →
      Asn1SequenceDecoder.mk
          (48 :: Asn1SequenceEncoder.encodeLength body.length ++ (body ++ junk))
        = .error .dataError) ∧
    (∀ (buf : List Nat) (off : Int), off ≠ (buf.length : Int) →
      Asn1SequenceDecoder.endCheck ⟨buf, some off⟩ = .error .dataError) :=
  ⟨fun body junk hlen hj => mk_trailing body junk hlen hj,
   fun buf off h => endCheck_error_of_ne buf off h⟩

/-- Witness for `c6_decoder_length_exact`: a one-byte trailing garbage byte is
rejected at construction, and `end()` rejects a non-final offset. -/
theorem c6_decoder_length_exact_witness :
    Asn1SequenceDecoder.mk (48 :: Asn1SequenceEncoder.encodeLength 1 ++ ([5] ++ [9]))
        = .error .dataError ∧
    Asn1SequenceDecoder.endCheck ⟨[48], some 0⟩ = .error .dataError :=
  ⟨c6_decoder_length_exact.1 [5] [9] (by decide) (by decide),
   c6_decoder_length_exact.2 [48] 0 (by decide)⟩

/-!
RSA `publicExponent` conversion (`uint8ArrayToUint32` in the RSA module).
The loop accumulates `result = (result << 8) | bigInteger[i]` with JavaScript
32-bit semantics and throws a `NotSupportedError` when the accumulated value
exceeds 0xffffff *before* absorbing the next byte; the final statement returns
`result & 0xffffffff`.
-/

/-- Loop of `uint8ArrayToUint32`. -/
def uint8ArrayToUint32Loop : List Nat → Int → Except JsErr Int
  | [], result => .ok (jsAnd result 4294967295)
  | b :: rest, result =>
      if result > 16777215 then .error .notSupported
      else uint8ArrayToUint32Loop rest (jsOr (jsShl8 result) (b : Int))

/-- The RSA module's `uint8ArrayToUint32`. -/
def uint8ArrayToUint32 (bigInteger : List Nat) : Except JsErr Int :=
  uint8ArrayToUint32Loop bigInteger 0

theorem u32_int32 (y : Int) : u32 (int32 y) = u32 y := by
  unfold int32 u32
  split
  · omega
  · omega

theorem int32_int32 (y : Int) : int32 (int32 y) = int32 y := by
  unfold int32
  rw [show u32 (if u32 y < 2147483648 then ((u32 y : Nat) : Int)
        else ((u32 y : Nat) : Int) - 4294967296) = u32 (int32 y) from rfl]
  rw [u32_int32]

theorem land_ones_32 (n : Nat) (h : n < 4294967296) : n &&& 4294967295 = n := by
  apply Nat.eq_of_testBit_eq
  intro i
  rw [Nat.testBit_and]
  rcases Nat.lt_or_ge i 32 with hi | hi
  · have : (4294967295 : Nat).testBit i = true := by
      have : (4294967295 : Nat) = 2 ^ 32 - 1 := by norm_num
      rw [this, Nat.testBit_two_pow_sub_one]
      simpa using hi
    simp [this]
  · have h1 : n.testBit i = false :=
      Nat.testBit_lt_two_pow (lt_of_lt_of_le h (by
        calc (4294967296 : Nat) = 2 ^ 32 := by norm_num
        _ ≤ 2 ^ i := Nat.pow_le_pow_right (by norm_num) hi))
    simp [h1]

theorem jsAnd_ones (y : Int) : jsAnd y 4294967295 = int32 y := by
  unfold jsAnd
  have hm : u32 (4294967295 : Int) = 4294967295 := by
    have := u32_eq_self (a := 4294967295) (by norm_num) (by norm_num)
    omega
  rw [hm]
  have hy : u32 y < 4294967296 := by
    unfold u32
    omega
  rw [land_ones_32 _ hy]
  unfold int32
  rw [show u32 ((u32 y : Nat) : Int) = u32 y from by
    have := u32_eq_self (a := ((u32 y : Nat) : Int)) (by positivity) (by exact_mod_cast hy)
    omega]

theorem jsShl8_or_byte_wide {a : Nat} {b : Nat} (ha : a < 16777216) (hb : b < 256) :
    jsOr (jsShl8 (a : Int)) (b : Int) = int32 ((a : Int) * 256 + b) := by
  have hu : (u32 (a : Int) : Int) = (a : Int) := u32_eq_self (by positivity) (by
    omega)
  have hsh : jsShl8 (a : Int) = int32 ((a : Int) * 256) := by
    unfold jsShl8
    rw [hu]
  rw [hsh]
  unfold jsOr
  have h256 : ((a : Int) * 256) = ((a * 256 : Nat) : Int) := by push_cast; ring
  have hu2 : u32 (int32 ((a : Int) * 256)) = a * 256 := by
    rw [u32_int32, h256]
    have := u32_eq_self (a := ((a * 256 : Nat) : Int)) (by positivity) (by omega)
    omega
  have hub : u32 (b : Int) = b := by
    have := u32_eq_self (a := (b : Int)) (by positivity) (by omega)
    omega
  rw [hu2, hub]
  have hmul : a * 256 = 256 * a := by ring
  rw [hmul, lor_mul256 _ _ hb]
  congr 1
  push_cast
  ring

theorem foldl_be_lt (l : List Nat) :
    ∀ acc : Nat, (∀ x ∈ l, x < 256) →
      l.foldl (fun a b => a * 256 + b) acc < (acc + 1) * 256 ^ l.length := by
  induction l with
  | nil => intro acc _; simp
  | cons b t ih =>
      intro acc hb
      simp only [List.foldl_cons, List.length_cons]
      calc t.foldl (fun a b => a * 256 + b) (acc * 256 + b)
          < (acc * 256 + b + 1) * 256 ^ t.length := ih _ (fun x hx => hb x (by simp [hx]))
        _ ≤ (acc + 1) * 256 ^ (t.length + 1) := by
            have hb' : b < 256 := hb b (by simp)
            have : acc * 256 + b + 1 ≤ (acc + 1) * 256 := by nlinarith
            calc (acc * 256 + b + 1) * 256 ^ t.length
                ≤ ((acc + 1) * 256) * 256 ^ t.length := by
                  exact Nat.mul_le_mul_right _ this
              _ = (acc + 1) * 256 ^ (t.length + 1) := by ring

theorem uint8ArrayToUint32Loop_ok (bs : List Nat) :
    ∀ acc : Nat, (∀ x ∈ bs, x < 256) →
    (∀ i < bs.length, (bs.take i).foldl (fun a b => a * 256 + b) acc ≤ 16777215) →
    uint8ArrayToUint32Loop bs (acc : Int)
      = .ok (int32 ((bs.foldl (fun a b => a * 256 + b) acc : Nat) : Int)) := by
  induction bs with
  | nil =>
      intro acc _ _
      simp only [uint8ArrayToUint32Loop, List.foldl_nil]
      rw [jsAnd_ones]
  | cons b t ih =>
      intro acc hbytes hpre
      have hacc : acc ≤ 16777215 := by
        have := hpre 0 (by simp)
        simpa using this
      have hb : b < 256 := hbytes b (by simp)
      simp only [uint8ArrayToUint32Loop]
      rw [if_neg (by omega)]
      rw [jsShl8_or_byte_wide (by omega) hb]
      cases t with
      | nil =>
          simp only [uint8ArrayToUint32Loop, List.foldl_cons, List.foldl_nil]
          rw [jsAnd_ones, int32_int32]
          congr 1
      | cons b2 t2 =>
          have hstep : (acc * 256 + b : Nat) ≤ 16777215 := by
            have := hpre 1 (by simp)
            simpa using this
          have hint : int32 ((acc : Int) * 256 + b) = ((acc * 256 + b : Nat) : Int) := by
            rw [show (acc : Int) * 256 + b = ((acc * 256 + b : Nat) : Int) from by push_cast; ring]
            exact int32_eq_self (by positivity) (by omega)
          rw [hint, ih (acc * 256 + b)
            (fun x hx => hbytes x (by simp [hx]))
            (fun i hi => by
              have := hpre (i + 1) (by simpa using Nat.succ_lt_succ hi)
              simpa using this)]
          simp

/-- C8 (amended): `uint8ArrayToUint32` converts every big-endian byte sequence
of at most four bytes without throwing, returning the value as a signed 32-bit
integer (`ToInt32` of the big-endian value); in particular exponent values at
and above 2^24 whose minimal representation needs four bytes do *not* fail
with a `NotSupportedError`.  The `NotSupportedError` check only fires when the
accumulated value of a proper prefix already exceeds 0xffffff. -/
theorem c8_uint32_conversion_accepts_four_bytes (b : List Nat)
    (hbytes : ∀ x ∈ b, x < 256) (hlen : b.length ≤ 4) :
    uint8ArrayToUint32 b = .ok (int32 ((beVal b : Nat) : Int)) := by
  unfold uint8ArrayToUint32 beVal
  rw [show (0 : Int) = ((0 : Nat) : Int) from rfl]
  apply uint8ArrayToUint32Loop_ok b 0 hbytes
  intro i hi
  have hlt : (b.take i).foldl (fun a b => a * 256 + b) 0 < (0 + 1) * 256 ^ (b.take i).length :=
    foldl_be_lt _ 0 (fun x hx => hbytes x (List.mem_of_mem_take hx))
  have hil : (b.take i).length ≤ 3 := by
    rw [List.length_take]
    omega
  have : (256 : Nat) ^ (b.take i).length ≤ 256 ^ 3 := Nat.pow_le_pow_right (by norm_num) hil
  simp only [one_mul] at hlt
  calc (b.take i).foldl (fun a b => a * 256 + b) 0 ≤ 256 ^ (b.take i).length - 1 := by omega
    _ ≤ 256 ^ 3 - 1 := by omega
    _ = 16777215 := by norm_num

/-- C8 counterexample: the exponent bytes `[0x01, 0x00, 0x00, 0x01]`, whose
value 16777217 = 2^24 + 1 needs four significant bytes, are converted
successfully (no `NotSupportedError`), contradicting the claim that every
value at or above 2^24 fails before key generation. -/
theorem c8_counterexample :
    uint8ArrayToUint32 [1, 0, 0, 1] = .ok 16777217 := by decide

/-- Witness for `c8_uint32_conversion_accepts_four_bytes` at the concrete
input `[0xff, 0xff, 0xff, 0xff]` (which converts to the signed value -1). -/
theorem c8_uint32_conversion_witness :
    uint8ArrayToUint32 [255, 255, 255, 255] = .ok (int32 ((beVal [255, 255, 255, 255] : Nat) : Int)) :=
  c8_uint32_conversion_accepts_four_bytes [255, 255, 255, 255] (by decide) (by decide)

/-!
HKDF and PBKDF2 `deriveBits` (length validation and the HKDF extract-and-expand
loop).  `length` is modelled as `Option Int`, with `none` standing for
JavaScript `null`; `length >>= 3` is ToInt32 followed by an arithmetic right
shift, i.e. floor division by 8.  The provider's HMAC primitive is a function
parameter `hmacP` (key, data ↦ mac); PBKDF2's derivation itself is delegated to
the provider, so the embedded function returns the byte count handed to it.
-/

/-- Expansion loop of `HKDF.deriveBits`:
`t = blocks[i] = hmac(hashFn, prk, t ‖ info ‖ Buffer.from([i + 1]))`.
`Buffer.from` reduces the block index modulo 256. -/
def hkdfBlocks (hmacP : List Nat → List Nat → List Nat) (prk info : List Nat) :
    Nat → Nat → List Nat → List (List Nat)
  | 0, _, _ => []
  | n + 1, i, t =>
      let t' := hmacP prk (t ++ info ++ [(i + 1) % 256])
      t' :: hkdfBlocks hmacP prk info n (i + 1) t'

/-- `HKDF.deriveBits` from the HKDF module: throws `OperationError` only when
`length === null`; otherwise `length >>= 3` floors the bit count to bytes and
the RFC 5869 expand loop runs.  `Math.ceil(length / hashLen)` is `Infinity`
when the HMAC output is empty and `new Array(Infinity)` throws a `RangeError`;
likewise `new Array(N)` throws for negative `N` (only reachable for negative
lengths).  Both corners are modelled as `rangeError`. -/
def hkdfDeriveBits (hmacP : List Nat → List Nat → List Nat)
    (salt keyDerivationKey info : List Nat) (length : Option Int) :
    Except JsErr (List Nat) :=
  match length with
  | none => .error .operationError
  | some len0 =>
      let len : Int := Int.fdiv (int32 len0) 8
      let pseudoRandomKey := hmacP salt keyDerivationKey
      let hashLen := pseudoRandomKey.length
      if hashLen = 0 then .error .rangeError
      else
        let nBlocks : Int := -(Int.fdiv (-len) (hashLen : Int))
        if nBlocks < 0 then .error .rangeError
        else
          .ok (((hkdfBlocks hmacP pseudoRandomKey info nBlocks.toNat 0 []).flatten).take len.toNat)

/-- `PBKDF2.deriveBits` from the PBKDF2 module: throws `OperationError` when
`length === null || length % 8 !== 0` and when `iterations === 0`; otherwise
delegates to the provider's `pbkdf2` with `length >> 3` bytes (the returned
value is that byte count).  JavaScript `%` keeps the dividend's sign
(`Int.tmod`). -/
def pbkdf2DeriveBits (iterations : Nat) (length : Option Int) : Except JsErr Int :=
  match length with
  | none => .error .operationError
  | some len0 =>
      if Int.tmod len0 8 ≠ 0 then .error .operationError
      else
        let len := Int.fdiv (int32 len0) 8
        if iterations = 0 then .error .operationError
        else .ok len

/-- C7 (amended): PBKDF2's `deriveBits` throws an `OperationError` exactly when
`length` is null, not a multiple of 8, or `iterations` is zero; but HKDF's
`deriveBits` throws an `OperationError` only for a null `length` — a bit count
that is not a multiple of 8 is silently floored to whole bytes
(`length >>= 3`) and the derivation succeeds. -/
theorem c7_deriveBits_length_validation :
    (∀ (iterations : Nat) (l : Int),
        (pbkdf2DeriveBits iterations (some l) = .error .operationError
          ↔ (Int.tmod l 8 ≠ 0 ∨ iterations = 0))
        ∧ pbkdf2DeriveBits iterations none = .error .operationError) ∧
    (∀ (hmacP : List Nat → List Nat → List Nat) (salt ikm info : List Nat),
        (∀ k d, (hmacP k d).length ≠ 0) →
        ((∀ l : Int, 0 ≤ l → l < 2147483648 →
            ∃ out, hkdfDeriveBits hmacP salt ikm info (some l) = .ok out)
          ∧ hkdfDeriveBits hmacP salt ikm info none = .error .operationError)) := by
  constructor
  · intro iterations l
    constructor
    · unfold pbkdf2DeriveBits
      by_cases h8 : Int.tmod l 8 ≠ 0
      · simp [h8]
      · simp only [h8, if_false, if_neg h8]
        by_cases hit : iterations = 0
        · simp [hit, h8]
        · simp [hit, h8]
    · rfl
  · intro hmacP salt ikm info hne
    refine ⟨?_, rfl⟩
    intro l hl0 hl31
    have hint : int32 l = l := int32_eq_self hl0 hl31
    simp only [hkdfDeriveBits, hint]
    rw [if_neg (hne salt ikm)]
    have hpos : (0 : Int) < ((hmacP salt ikm).length : Int) := by
      have := hne salt ikm
      omega
    have hfd : 0 ≤ Int.fdiv l 8 := Int.fdiv_nonneg hl0 (by norm_num)
    have hnb : Int.fdiv (-(Int.fdiv l 8)) ((hmacP salt ikm).length : Int) ≤ 0 := by
      rcases lt_or_eq_of_le (show -(Int.fdiv l 8) ≤ 0 by omega) with hlt | heq
      · exact le_of_lt (Int.fdiv_neg' hlt hpos)
      · rw [heq]
        simp [Int.zero_fdiv]
    rw [if_neg (by omega)]
    exact ⟨_, rfl⟩

/-- C7 counterexample: with a 256-bit HMAC, requesting 12 bits (not a multiple
of 8) from `HKDF.deriveBits` does not throw an `OperationError`; the bit count
is floored to one byte and the first byte of `T(1)` is returned. -/
theorem c7_counterexample :
    hkdfDeriveBits (fun _ _ => List.replicate 32 7) [] [] [] (some 12) = .ok [7] := by
  decide

/-- Witness for `c7_deriveBits_length_validation` at concrete inputs. -/
theorem c7_deriveBits_length_validation_witness :
    (pbkdf2DeriveBits 1000 (some 12) = .error .operationError ↔ (Int.tmod 12 8 ≠ 0 ∨ 1000 = 0)) ∧
    hkdfDeriveBits (fun _ _ => List.replicate 32 9) [] [] [] none = .error .operationError :=
  ⟨(c7_deriveBits_length_validation.1 1000 12).1,
   ((c7_deriveBits_length_validation.2 (fun _ _ => List.replicate 32 9) [] [] []
      (fun _ _ => by simp)).2)⟩

/-!
Signature verification (HMAC and ECDSA modules) and ECDH key generation.
`CKey` models the `CryptoKey` of `lib/key.js` restricted to the attributes
these claims depend on; the key material is opaque bytes.  The cryptographic
primitives of the external provider (`createHmac(...).digest()`,
`crypto.verify`, `ecdh.generateKeys()`) are function parameters.
-/

/-- CryptoKey as needed by the signature/ECDH claims. -/
structure CKey where
  typ : String
  algName : String
  namedCurve : Option String := none
  extractable : Bool := false
  usages : List String := []
  material : List Nat := []
  deriving DecidableEq, Repr

/-- Curve registry of `lib/curves.js`: provider curve name and base-point
order size per supported curve. -/
def curveInfo (namedCurve : String) : Option (String × Nat) :=
  if namedCurve = "P-256" then some ("prime256v1", 32)
  else if namedCurve = "P-384" then some ("secp384r1", 48)
  else if namedCurve = "P-521" then some ("secp521r1", 66)
  else if namedCurve = "K-256" then some ("secp256k1", 32)
  else none

/-- Node's `crypto.timingSafeEqual`: throws a `RangeError`
(`ERR_CRYPTO_TIMING_SAFE_EQUAL_LENGTH`, per Node's documented behaviour for
this platform primitive) unless both buffers have the same byte length,
and otherwise compares them. -/
def timingSafeEqual (a b : List Nat) : Except JsErr Bool :=
  if a.length = b.length then .ok (decide (a = b)) else .error .rangeError

/-- `HMAC.verify`: `timingSafeEqual(this.sign(algorithm, key, data), signature)`
where `this.sign` recomputes the MAC with the provider's HMAC (`hmacP`). -/
def hmacVerify (hmacP : List Nat → List Nat → List Nat)
    (keyMaterial signature data : List Nat) : Except JsErr Bool :=
  timingSafeEqual (hmacP keyMaterial data) signature

/-- `convertSignatureToASN1` of the ECDSA module: `undefined` (here `none`)
when the fixed-width signature is not exactly `2 * n` bytes, else the DER
`SEQUENCE{INTEGER r, INTEGER s}` produced by the encoder. -/
def convertSignatureToASN1 (signature : List Nat) (n : Nat) : Option (List Nat) :=
  if signature.length ≠ 2 * n then none
  else some (Asn1SequenceEncoder.encodeSeq [signature.take n, signature.drop n])

/-- `ECDSA.verify`: public-key check, fixed-width → DER conversion returning
`false` on a wrong-width signature, then delegation to the provider's
`crypto.verify` (parameter `cryptoVerify`, absorbing the resolved hash).
An unknown curve makes `curveInfo[...]` `undefined`, so reading
`.basePointOrderSize` throws a TypeError. -/
def ecdsaVerify (cryptoVerify : List Nat → List Nat → Bool)
    (key : CKey) (signature data : List Nat) : Except JsErr Bool :=
  if key.typ ≠ "public" then .error .invalidAccess
  else
    match curveInfo (key.namedCurve.getD "") with
    | none => .error .typeError
    | some (_, n) =>
        match convertSignatureToASN1 signature n with
        | none => .ok false
        | some asn1 => .ok (cryptoVerify data asn1)

/-- C2 evaluated at the failing input: ECDSA's `verify` returns `false` for a
63-byte signature on P-256 (wrong fixed width, 2·32 = 64 expected) without
throwing, but HMAC's `verify` with a SHA-256 MAC and an empty signature throws
(Node's `timingSafeEqual` raises a RangeError when the recomputed MAC and the
supplied signature differ in length) instead of returning `false` as the claim
requires. -/
theorem c2_verify_wrong_length_behaviour :
    ecdsaVerify (fun _ _ => false)
        ⟨"public", "ECDSA", some "P-256", false, ["verify"], []⟩
        (List.replicate 63 0) [] = .ok false ∧
    hmacVerify (fun _ _ => List.replicate 32 0) [] [] [] = .error .rangeError := by
  constructor
  · decide
  · decide

/-- `limitUsages` of the utility module with an explicit error class. -/
def limitUsages (usages allowed : List String) (err : JsErr) : Except JsErr Unit :=
  if usages.all (fun u => allowed.contains u) then .ok () else .error err

/-- `ECDH.generateKey`: curve lookup (`NotSupportedError` for unknown curves),
usage restriction to `deriveKey`/`deriveBits` (`SyntaxError` otherwise), then a
key pair whose public key is always extractable with an empty usage list and
whose private key carries the caller's `extractable` and `usages`.  The
provider's `ecdh.generateKeys()` result is the parameter `publicKeyBytes`; the
private key's material is the provider's ECDH handle (opaque, modelled
empty). -/
def ecdhGenerateKey (publicKeyBytes : List Nat) (namedCurve : String)
    (extractable : Bool) (usages : List String) : Except JsErr (CKey × CKey) :=
  match curveInfo namedCurve with
  | none => .error .notSupported
  | some _ => do
      let _ ← limitUsages usages ["deriveKey", "deriveBits"] .syntaxError
      pure (⟨"public", "ECDH", some namedCurve, true, [], publicKeyBytes⟩,
            ⟨"private", "ECDH", some namedCurve, extractable, usages, []⟩)

/-- C10: whenever `ECDH.generateKey` succeeds, the returned public key has
`extractable = true` and an empty usage list regardless of the caller-supplied
arguments, while the private key carries the caller's `extractable` flag and
usages (which were validated against `{deriveKey, deriveBits}`). -/
theorem c10_ecdh_public_key_unrestricted
    (pub : List Nat) (namedCurve : String) (extractable : Bool) (usages : List String)
    (pair : CKey × CKey)
    (h : ecdhGenerateKey pub namedCurve extractable usages = .ok pair) :
    pair.1.typ = "public" ∧ pair.1.extractable = true ∧ pair.1.usages = [] ∧
    pair.2.typ = "private" ∧ pair.2.extractable = extractable ∧ pair.2.usages = usages
    ∧ usages.all (fun u => (["deriveKey", "deriveBits"] : List String).contains u) := by
  unfold ecdhGenerateKey at h
  rcases hc : curveInfo namedCurve with _ | c
  · rw [hc] at h
    simp at h
  · rw [hc] at h
    unfold limitUsages at h
    by_cases hu : usages.all (fun u => (["deriveKey", "deriveBits"] : List String).contains u)
    · rw [if_pos hu] at h
      simp only [bind, Except.bind, pure, Except.pure, Except.ok.injEq] at h
      subst h
      exact ⟨rfl, rfl, rfl, rfl, rfl, rfl, hu⟩
    · rw [if_neg hu] at h
      simp [bind, Except.bind] at h

/-- Witness for `c10_ecdh_public_key_unrestricted` on a concrete P-256 call
with `extractable = false` and usages `[deriveBits]`. -/
theorem c10_ecdh_public_key_unrestricted_witness :
    (⟨"public", "ECDH", some "P-256", true, [], [4]⟩ : CKey).typ = "public" ∧
    (⟨"public", "ECDH", some "P-256", true, [], [4]⟩ : CKey).extractable = true ∧
    (⟨"public", "ECDH", some "P-256", true, [], [4]⟩ : CKey).usages = [] ∧
    (⟨"private", "ECDH", some "P-256", false, ["deriveBits"], []⟩ : CKey).typ = "private" ∧
    (⟨"private", "ECDH", some "P-256", false, ["deriveBits"], []⟩ : CKey).extractable = false ∧
    (⟨"private", "ECDH", some "P-256", false, ["deriveBits"], []⟩ : CKey).usages = ["deriveBits"] ∧
    (["deriveBits"] : List String).all
      (fun u => (["deriveKey", "deriveBits"] : List String).contains u) :=
  c10_ecdh_public_key_unrestricted [4] "P-256" false ["deriveBits"]
    (⟨"public", "ECDH", some "P-256", true, [], [4]⟩,
     ⟨"private", "ECDH", some "P-256", false, ["deriveBits"], []⟩)
    (by decide)

/-!
AES-CTR counter-overflow simulation (`AES_CTR._doCipher`).  The provider's
one-shot CTR primitive (`createCipheriv(cipher, key, iv).update(data)`) is the
function parameter `fn`; `doCipher` is polymorphic in `fn`'s element type, so
instantiating `fn` with a pair-collecting function yields the exact sequence
of provider invocations (chunk, IV), while instantiating it with the CTR
keystream model yields the ciphertext bytes.
-/

/-- The bit probed by the overflow scan:
`iv[15 - Math.floor(i / 8)] & (1 << (i % 8))`. -/
def ctrIvBit (iv : List Nat) (i : Nat) : Nat :=
  (iv.getD (15 - i / 8) 0) &&& (1 <<< (i % 8))

/-- Scan loop computing `nBlocksBeforeOverflow`: starting from 1, add `2 ^ i`
for every clear counter bit `i < length`, returning `none` when the early
return `if (nBlocksBeforeOverflow >= data.length / 16) return fn(data, iv)`
fires (the comparison `n ≥ dataLen / 16` over JavaScript numbers is
`16 * n ≥ dataLen`). -/
def countBlocksAux (iv : List Nat) (dataLen : Nat) : Nat → Nat → Nat → Option Nat
  | 0, _, n => some n
  | fuel + 1, i, n =>
      if ctrIvBit iv i = 0 then
        let n' := n + 2 ^ i
        if dataLen ≤ 16 * n' then none
        else countBlocksAux iv dataLen fuel (i + 1) n'
      else countBlocksAux iv dataLen fuel (i + 1) n

/-- The `for (let i = 0; i < length; i++)` scan. -/
def countBlocks (iv : List Nat) (dataLen len : Nat) : Option Nat :=
  countBlocksAux iv dataLen len 0 1

/-- One byte of the overflow IV: `Buffer.from(iv)` copied, then
`fill(0, 16 - Math.floor(length / 8), 16)` when `length >= 8`, then
`overflowIV[15 - Math.floor(length / 8)] &= (0xff << (length % 8)) & 0xff`. -/
def overflowIVByte (iv : List Nat) (len j : Nat) : Nat :=
  let b := iv.getD j 0
  let b := if 8 ≤ len ∧ 16 - len / 8 ≤ j then 0 else b
  if j = 15 - len / 8 then b &&& ((255 <<< (len % 8)) &&& 255) else b

/-- The overflow IV constructed by `_doCipher`. -/
def overflowIV (iv : List Nat) (len : Nat) : List Nat :=
  List.ofFn (fun j : Fin 16 => overflowIVByte iv len j.val)

/-- The `for (let i = nBlocksBeforeOverflow; i < nBlocks; i += blocksPerCycle)`
loop: each iteration processes `data.slice(16 * i, 16 * (i + blocksPerCycle))`
with the overflow IV; results are concatenated in order. -/
def chunkLoop {α : Type} (fn : List Nat → List Nat → List α) (oiv data : List Nat)
    (nBlocks c : Nat) : Nat → Nat → List α
  | 0, _ => []
  | fuel + 1, i =>
      if i < nBlocks then
        fn (jsSlice data (16 * i) (16 * (i + c))) oiv
          ++ chunkLoop fn oiv data nBlocks c fuel (i + c)
      else []

/-- `AES_CTR._doCipher(iv, length, data, fn)`. -/
def doCipher {α : Type} (fn : List Nat → List Nat → List α) (iv : List Nat)
    (len : Nat) (data : List Nat) : List α :=
  if len = 128 then fn data iv
  else
    match countBlocks iv data.length len with
    | none => fn data iv
    | some n =>
        let oiv := overflowIV iv len
        let nBlocks := (data.length + 15) / 16
        fn (jsSlice data 0 (16 * n)) iv ++ chunkLoop fn oiv data nBlocks (2 ^ len) nBlocks n

/-- Big-endian increment of a counter block (modulo 2^(8·length)), the
behaviour of the native CTR mode between successive blocks. -/
def incLE : List Nat → List Nat
  | [] => []
  | b :: rest => if b = 255 then 0 :: incLE rest else (b + 1) :: rest

/-- Increment of the big-endian 16-byte counter. -/
def inc128 (iv : List Nat) : List Nat := (incLE iv.reverse).reverse

/-- Keystream blocks of the provider's CTR mode: `E` is the block cipher under
the fixed key applied to successive counter values. -/
def ksBlocks (E : List Nat → List Nat) (iv : List Nat) : Nat → List (List Nat)
  | 0 => []
  | k + 1 => E iv :: ksBlocks E (inc128 iv) k

/-- The provider's one-shot CTR primitive as a deterministic function of the
key (fixed inside `E`) and the IV: XOR of the data with the keystream starting
at counter `iv`. -/
def ctrStream (E : List Nat → List Nat) (data iv : List Nat) : List Nat :=
  List.zipWith (fun a b => a ^^^ b) data
    ((ksBlocks E iv ((data.length + 15) / 16)).flatten)

/-- Modelled from the specification's sentence, for comparison with the code's
`overflowIV`: an IV whose low `length` bits are zero and whose single bit
immediately above the `length`-bit counter field is cleared as well, all other
bits unchanged (bit `i` of the counter lives at bit `i % 8` of byte
`15 - i / 8`). -/
def specOverflowIV (iv : List Nat) (len : Nat) : List Nat :=
  List.ofFn (fun j : Fin 16 =>
    (List.range 8).foldl (fun acc p =>
      if len < (15 - j.val) * 8 + p ∧ Nat.testBit (iv.getD j.val 0) p
      then acc + 2 ^ p else acc) 0)

/-- Bit `i` of a 16-byte big-endian counter block, as the scan reads it. -/
def ivBit (iv : List Nat) (i : Nat) : Bool :=
  Nat.testBit (iv.getD (15 - i / 8) 0) (i % 8)

example : overflowIV [0, 0, 0, 0, 0, 0, 0, 0, 0, 0, 0, 0, 0, 0, 0, 3] 1
    = [0, 0, 0, 0, 0, 0, 0, 0, 0, 0, 0, 0, 0, 0, 0, 2] := by decide

example : specOverflowIV [0, 0, 0, 0, 0, 0, 0, 0, 0, 0, 0, 0, 0, 0, 0, 3] 1
    = [0, 0, 0, 0, 0, 0, 0, 0, 0, 0, 0, 0, 0, 0, 0, 0] := by decide

example : countBlocks [0, 0, 0, 0, 0, 0, 0, 0, 0, 0, 0, 0, 0, 0, 0, 3] 64 1 = some 1 := by
  decide

example : countBlocks [0, 0, 0, 0, 0, 0, 0, 0, 0, 0, 0, 0, 0, 0, 0, 2] 64 1 = some 2 := by
  decide

lemma testBit255 {x : Nat} (hx : x < 8) : Nat.testBit 255 x = true := by
  have h : ∀ m : Fin 8, Nat.testBit 255 m.val = true := by decide
  exact h ⟨x, hx⟩

lemma overflowIV_bit (iv : List Nat) (len : Nat) (hlen : len < 128)
    (i : Nat) (hi : i < 128) :
    ivBit (overflowIV iv len) i = if i < len then false else ivBit iv i := by
  have hj : 15 - i / 8 < 16 := by omega
  have hbyte : (overflowIV iv len).getD (15 - i / 8) 0
      = overflowIVByte iv len (15 - i / 8) := by
    rw [overflowIV, List.getD_eq_getElem _ _ (by simpa using hj), List.getElem_ofFn]
  rw [ivBit, hbyte]
  simp only [overflowIVByte]
  by_cases h1 : i / 8 < len / 8
  · rw [if_neg (show ¬(15 - i / 8 = 15 - len / 8) by omega),
      if_pos (show 8 ≤ len ∧ 16 - len / 8 ≤ 15 - i / 8 from ⟨by omega, by omega⟩),
      if_pos (show i < len by omega)]
    simp
  · by_cases h2 : i / 8 = len / 8
    · rw [if_pos (show 15 - i / 8 = 15 - len / 8 by omega),
        if_neg (show ¬(8 ≤ len ∧ 16 - len / 8 ≤ 15 - i / 8) by omega)]
      by_cases h3 : i % 8 < len % 8
      · rw [if_pos (show i < len by omega)]
        simp [Nat.testBit_and, Nat.testBit_shiftLeft,
          show ¬(len % 8 ≤ i % 8) from by omega]
      · rw [if_neg (show ¬ i < len by omega)]
        have t1 : Nat.testBit 255 (i % 8 - len % 8) = true := testBit255 (by omega)
        have t2 : Nat.testBit 255 (i % 8) = true := testBit255 (by omega)
        simp [Nat.testBit_and, Nat.testBit_shiftLeft, t1, t2,
          show len % 8 ≤ i % 8 from by omega, ivBit]
    · rw [if_neg (show ¬(15 - i / 8 = 15 - len / 8) by omega),
        if_neg (show ¬(8 ≤ len ∧ 16 - len / 8 ≤ 15 - i / 8) by omega),
        if_neg (show ¬ i < len by omega)]
      rfl

lemma chunkLoop_pair_mem (oiv data : List Nat) (nB c : Nat) :
    ∀ (fuel i : Nat) (p : List Nat × List Nat),
      p ∈ chunkLoop (fun dta v => [(dta, v)]) oiv data nB c fuel i → p.2 = oiv := by
  intro fuel
  induction fuel with
  | zero => intro i p hp; simp [chunkLoop] at hp
  | succ f ih =>
      intro i p hp
      simp only [chunkLoop] at hp
      by_cases hlt : i < nB
      · rw [if_pos hlt] at hp
        rcases List.mem_append.mp hp with h | h
        · have := List.mem_singleton.mp h
          subst this
          rfl
        · exact ih _ _ h
      · rw [if_neg hlt] at hp
        simp at hp

/-- C3 (counterexample): with `iv = 00…0003` and counter width `length = 1`,
`_doCipher`, traced with a pair-collecting `fn`, passes the overflow IV
`00…0002` to both provider invocations after the wraparound — an IV that
differs from the one described by the claim (`specOverflowIV`, which also
clears the bit immediately above the counter field and hence ends in `00`).
The code leaves the bit immediately above the counter field unchanged. -/
theorem c3_overflow_iv_counterexample :
    ((doCipher (fun dta v => [(dta, v)])
        [0, 0, 0, 0, 0, 0, 0, 0, 0, 0, 0, 0, 0, 0, 0, 3] 1
        (List.replicate 64 0)).map Prod.snd
      = [[0, 0, 0, 0, 0, 0, 0, 0, 0, 0, 0, 0, 0, 0, 0, 3],
         [0, 0, 0, 0, 0, 0, 0, 0, 0, 0, 0, 0, 0, 0, 0, 2],
         [0, 0, 0, 0, 0, 0, 0, 0, 0, 0, 0, 0, 0, 0, 0, 2]])
    ∧ [0, 0, 0, 0, 0, 0, 0, 0, 0, 0, 0, 0, 0, 0, 0, 2]
        ≠ specOverflowIV [0, 0, 0, 0, 0, 0, 0, 0, 0, 0, 0, 0, 0, 0, 0, 3] 1 := by
  decide

/-- C3 (amended): in AES-CTR with counter width `0 < length < 128`, every
provider invocation after the first — i.e. every block processed after the
first counter wraparound — receives the overflow IV, and the overflow IV has
its low `length` bits set to zero while every other bit, including the single
bit immediately above the `length`-bit counter field, is unchanged from the
original IV (the code does not clear the bit above the counter field). -/
theorem c3_overflow_iv_trace_and_bits (iv : List Nat) (len : Nat)
    (h0 : 0 < len) (hlen : len < 128) :
    (∀ (data : List Nat) (p : List Nat × List Nat),
        p ∈ (doCipher (fun dta v => [(dta, v)]) iv len data).tail
          → p.2 = overflowIV iv len) ∧
    (∀ i, i < 128 → ivBit (overflowIV iv len) i = if i < len then false else ivBit iv i) := by
  constructor
  · intro data p hp
    rw [doCipher, if_neg (show ¬ len = 128 by omega)] at hp
    cases hcb : countBlocks iv data.length len with
    | none =>
        rw [hcb] at hp
        simp at hp
    | some n =>
        rw [hcb] at hp
        simp only [List.singleton_append, List.tail_cons] at hp
        exact chunkLoop_pair_mem _ _ _ _ _ _ _ hp
  · intro i hi
    exact overflowIV_bit iv len hlen i hi

/-- Witness for `c3_overflow_iv_trace_and_bits`: bit 3 of the overflow IV for
`iv = 00…0003`, `length = 1` equals bit 3 of the original IV. -/
theorem c3_overflow_iv_trace_and_bits_witness :
    0 < 1 ∧ 1 < 128 ∧
    ivBit (overflowIV [0, 0, 0, 0, 0, 0, 0, 0, 0, 0, 0, 0, 0, 0, 0, 3] 1) 3
      = if 3 < 1 then false
        else ivBit [0, 0, 0, 0, 0, 0, 0, 0, 0, 0, 0, 0, 0, 0, 0, 3] 3 :=
  ⟨by decide, by decide,
    (c3_overflow_iv_trace_and_bits [0, 0, 0, 0, 0, 0, 0, 0, 0, 0, 0, 0, 0, 0, 0, 3] 1
      (by decide) (by decide)).2 3 (by decide)⟩

set_option maxRecDepth 8192 in
lemma and_254_even {b : Nat} (hb : b < 256) (h : b &&& 1 = 0) : b &&& 254 = b := by
  have hall : ∀ m : Fin 256, m.val &&& 1 = 0 → m.val &&& 254 = m.val := by decide
  exact hall ⟨b, hb⟩ h

set_option maxRecDepth 8192 in
lemma and_254_odd {b : Nat} (hb : b < 256) (h : ¬ b &&& 1 = 0) :
    (b &&& 254) + 1 = b ∧ ¬ b &&& 254 = 255 := by
  have hall : ∀ m : Fin 256, ¬ m.val &&& 1 = 0
      → ((m.val &&& 254) + 1 = m.val ∧ ¬ m.val &&& 254 = 255) := by decide
  exact hall ⟨b, hb⟩ h

lemma overflowIVByte_one (iv : List Nat) (j : Nat) :
    overflowIVByte iv 1 j = if j = 15 then iv.getD j 0 &&& 254 else iv.getD j 0 := by
  simp only [overflowIVByte]
  have h1 : (15 : Nat) - 1 / 8 = 15 := by norm_num
  have h2 : ¬(8 ≤ 1 ∧ 16 - 1 / 8 ≤ j) := by omega
  have h3 : (255 <<< (1 % 8)) &&& 255 = 254 := by decide
  rw [h1, if_neg h2, h3]

lemma overflowIV_one_split (iv : List Nat) (hiv : iv.length = 16) :
    overflowIV iv 1 = iv.take 15 ++ [iv.getD 15 0 &&& 254] := by
  apply List.ext_getElem
  · simp [overflowIV, hiv]
  · intro j h1 h2
    have hj : j < 16 := by simpa [overflowIV] using h1
    simp only [overflowIV, List.getElem_ofFn, overflowIVByte_one]
    by_cases hj15 : j = 15
    · subst hj15
      rw [if_pos rfl, List.getElem_append_right (by simp [hiv])]
      simp [hiv]
    · rw [if_neg hj15, List.getElem_append_left (by simp [hiv]; omega),
        List.getD_eq_getElem iv 0 (by omega), List.getElem_take]

lemma take15_append_last (iv : List Nat) (hiv : iv.length = 16) :
    iv.take 15 ++ [iv.getD 15 0] = iv := by
  have h15 : 15 < iv.length := by omega
  have htake : iv.take 16 = iv := List.take_of_length_le (by omega)
  have hsucc := List.take_succ (l := iv) (n := 15)
  rw [htake] at hsucc
  rw [List.getD_eq_getElem iv 0 h15]
  conv_rhs => rw [hsucc]
  rw [List.getElem?_eq_getElem h15]
  rfl

lemma inc128_append_last (A : List Nat) (x : Nat) (hx : ¬ x = 255) :
    inc128 (A ++ [x]) = A ++ [x + 1] := by
  simp [inc128, incLE, hx]

lemma overflowIV_one_even (iv : List Nat) (hiv : iv.length = 16)
    (hb : iv.getD 15 0 < 256) (he : iv.getD 15 0 &&& 1 = 0) :
    overflowIV iv 1 = iv := by
  rw [overflowIV_one_split iv hiv, and_254_even hb he, take15_append_last iv hiv]

lemma inc128_overflowIV_one_odd (iv : List Nat) (hiv : iv.length = 16)
    (hb : iv.getD 15 0 < 256) (ho : ¬ iv.getD 15 0 &&& 1 = 0) :
    inc128 (overflowIV iv 1) = iv := by
  obtain ⟨hsucc, hne⟩ := and_254_odd hb ho
  rw [overflowIV_one_split iv hiv, inc128_append_last _ _ hne, hsucc,
    take15_append_last iv hiv]

lemma ksBlocks_flatten_length (E : List Nat → List Nat)
    (hE : ∀ x, (E x).length = 16) :
    ∀ (k : Nat) (iv : List Nat), ((ksBlocks E iv k).flatten).length = 16 * k := by
  intro k
  induction k with
  | zero => intro iv; simp [ksBlocks]
  | succ n ih =>
      intro iv
      simp [ksBlocks, hE, ih]
      ring

lemma ctrStream_length (E : List Nat → List Nat) (hE : ∀ x, (E x).length = 16)
    (dta iv : List Nat) : (ctrStream E dta iv).length = dta.length := by
  simp [ctrStream, ksBlocks_flatten_length E hE]
  omega

lemma ctrStream_one (E : List Nat → List Nat) (x v : List Nat)
    (hx : x.length = 16) :
    ctrStream E x v = List.zipWith (fun a b => a ^^^ b) x (E v) := by
  rw [ctrStream, hx]
  norm_num
  simp [ksBlocks]

lemma ctrStream_two (E : List Nat → List Nat) (x1 x2 v : List Nat)
    (h1 : x1.length = 16) (h2 : x2.length = 16) (hEv : (E v).length = 16) :
    ctrStream E (x1 ++ x2) v
      = List.zipWith (fun a b => a ^^^ b) x1 (E v)
        ++ List.zipWith (fun a b => a ^^^ b) x2 (E (inc128 v)) := by
  rw [ctrStream, show (x1 ++ x2).length = 32 by simp [h1, h2]]
  norm_num
  simp only [ksBlocks, List.flatten_cons, List.flatten_nil, List.append_nil]
  rw [List.zipWith_append _ _ _ _ _ (by rw [h1, hEv])]

lemma jsSlice_toNat (l : List Nat) (s e : Nat) :
    jsSlice l (s : Int) (e : Int) = (l.take (min e l.length)).drop (min s l.length) := by
  simp only [jsSlice, jsSliceIdx,
    if_neg (Int.not_lt.mpr (Int.natCast_nonneg s)),
    if_neg (Int.not_lt.mpr (Int.natCast_nonneg e)), Int.toNat_natCast]

/-- C9: with the provider's CTR primitive modelled as a deterministic
keystream (`ctrStream E`, where `E` is the block cipher under the fixed key),
`_doCipher` with counter width `length = 1` maps a 64-byte plaintext made of
two identical 32-byte halves to a ciphertext with two identical 32-byte
halves, for every block cipher `E` and every 16-byte counter block. -/
theorem c9_ctr_identical_halves (E : List Nat → List Nat)
    (hE : ∀ x, (E x).length = 16) (iv : List Nat) (hiv : iv.length = 16)
    (hbytes : ∀ b ∈ iv, b < 256) (d : List Nat) (hd : d.length = 32) :
    (doCipher (ctrStream E) iv 1 (d ++ d)).take 32
      = (doCipher (ctrStream E) iv 1 (d ++ d)).drop 32 := by
  have h15 : 15 < iv.length := by omega
  have hb15 : iv.getD 15 0 < 256 := by
    rw [List.getD_eq_getElem iv 0 h15]
    exact hbytes _ (List.getElem_mem h15)
  have hlen : (d ++ d).length = 64 := by simp [hd]
  by_cases hbit : iv.getD 15 0 &&& 1 = 0
  · -- Even final IV byte: two blocks fit before the 1-bit counter overflows,
    -- and masking the low bit leaves the IV unchanged.
    have hbit' : iv[15]?.getD 0 % 2 = 0 := by simpa using hbit
    have hcb : countBlocks iv 64 1 = some 2 := by
      simp [countBlocks, countBlocksAux, ctrIvBit, hbit']
    have hoiv : overflowIV iv 1 = iv := overflowIV_one_even iv hiv hb15 hbit
    have hred : doCipher (ctrStream E) iv 1 (d ++ d)
        = ctrStream E (jsSlice (d ++ d) 0 32) iv
          ++ chunkLoop (ctrStream E) (overflowIV iv 1) (d ++ d) 4 2 4 2 := by
      rw [doCipher, if_neg (show ¬(1 : Nat) = 128 by norm_num), hlen, hcb]
      rfl
    have hchunk : chunkLoop (ctrStream E) iv (d ++ d) 4 2 4 2
        = ctrStream E (jsSlice (d ++ d) 32 64) iv ++ [] := rfl
    have hs1 : jsSlice (d ++ d) 0 32 = d := by
      rw [jsSlice, hlen]
      show ((d ++ d).take 32).drop 0 = d
      rw [List.drop_zero]
      exact List.take_left' hd
    have hs2 : jsSlice (d ++ d) 32 64 = d := by
      rw [jsSlice, hlen]
      show ((d ++ d).take 64).drop 32 = d
      rw [show (d ++ d).take 64 = d ++ d from by rw [← hlen]; simp]
      exact List.drop_left' hd
    rw [hred, hoiv, hchunk, hs1, hs2, List.append_nil]
    have hC : (ctrStream E d iv).length = 32 := by
      rw [ctrStream_length E hE]
      exact hd
    rw [List.take_left' hC, List.drop_left' hC]
  · -- Odd final IV byte: the counter overflows after one block; the overflow
    -- IV is the original with the low bit cleared, and incrementing it once
    -- returns the original IV.
    have hbit' : iv[15]?.getD 0 % 2 = 1 := by simpa using hbit
    have hcb : countBlocks iv 64 1 = some 1 := by
      simp [countBlocks, countBlocksAux, ctrIvBit, hbit']
    have hinc : inc128 (overflowIV iv 1) = iv :=
      inc128_overflowIV_one_odd iv hiv hb15 hbit
    obtain ⟨d0, d1, rfl, hd0, hd1⟩ :
        ∃ d0 d1, d = d0 ++ d1 ∧ d0.length = 16 ∧ d1.length = 16 :=
      ⟨d.take 16, d.drop 16, (List.take_append_drop 16 d).symm,
        by simp [hd], by simp [hd]⟩
    have hred : doCipher (ctrStream E) iv 1 ((d0 ++ d1) ++ (d0 ++ d1))
        = ctrStream E (jsSlice ((d0 ++ d1) ++ (d0 ++ d1)) 0 16) iv
          ++ chunkLoop (ctrStream E) (overflowIV iv 1)
              ((d0 ++ d1) ++ (d0 ++ d1)) 4 2 4 1 := by
      rw [doCipher, if_neg (show ¬(1 : Nat) = 128 by norm_num), hlen, hcb]
      rfl
    have hchunk : chunkLoop (ctrStream E) (overflowIV iv 1)
          ((d0 ++ d1) ++ (d0 ++ d1)) 4 2 4 1
        = ctrStream E (jsSlice ((d0 ++ d1) ++ (d0 ++ d1)) 16 48) (overflowIV iv 1)
          ++ (ctrStream E (jsSlice ((d0 ++ d1) ++ (d0 ++ d1)) 48 80) (overflowIV iv 1)
            ++ []) := rfl
    have hs1 : jsSlice ((d0 ++ d1) ++ (d0 ++ d1)) 0 16 = d0 := by
      rw [jsSlice, hlen]
      show (((d0 ++ d1) ++ (d0 ++ d1)).take 16).drop 0 = d0
      rw [List.drop_zero, List.append_assoc]
      exact List.take_left' hd0
    have hs2 : jsSlice ((d0 ++ d1) ++ (d0 ++ d1)) 16 48 = d1 ++ d0 := by
      rw [jsSlice, hlen]
      show (((d0 ++ d1) ++ (d0 ++ d1)).take 48).drop 16 = d1 ++ d0
      rw [show (d0 ++ d1) ++ (d0 ++ d1) = ((d0 ++ d1) ++ d0) ++ d1 from by
        simp [List.append_assoc]]
      rw [List.take_left' (by simp [hd0, hd1]), List.append_assoc]
      exact List.drop_left' hd0
    have hs3 : jsSlice ((d0 ++ d1) ++ (d0 ++ d1)) 48 80 = d1 := by
      rw [jsSlice, hlen]
      show (((d0 ++ d1) ++ (d0 ++ d1)).take 64).drop 48 = d1
      rw [show ((d0 ++ d1) ++ (d0 ++ d1)).take 64 = (d0 ++ d1) ++ (d0 ++ d1) from by
        rw [← hlen]; simp]
      rw [show (d0 ++ d1) ++ (d0 ++ d1) = ((d0 ++ d1) ++ d0) ++ d1 from by
        simp [List.append_assoc]]
      exact List.drop_left' (by simp [hd0, hd1])
    have hz1 : ctrStream E d0 iv = List.zipWith (fun a b => a ^^^ b) d0 (E iv) :=
      ctrStream_one E d0 iv hd0
    have hz2 : ctrStream E (d1 ++ d0) (overflowIV iv 1)
        = List.zipWith (fun a b => a ^^^ b) d1 (E (overflowIV iv 1))
          ++ List.zipWith (fun a b => a ^^^ b) d0 (E iv) := by
      rw [ctrStream_two E d1 d0 _ hd1 hd0 (hE _), hinc]
    have hz3 : ctrStream E d1 (overflowIV iv 1)
        = List.zipWith (fun a b => a ^^^ b) d1 (E (overflowIV iv 1)) :=
      ctrStream_one E d1 _ hd1
    rw [hred, hchunk, hs1, hs2, hs3, hz1, hz2, hz3, List.append_nil]
    have hre : ∀ A B : List Nat, A ++ ((B ++ A) ++ B) = (A ++ B) ++ (A ++ B) := by
      intro A B
      simp [List.append_assoc]
    rw [hre]
    have hAB : (List.zipWith (fun a b => a ^^^ b) d0 (E iv)
        ++ List.zipWith (fun a b => a ^^^ b) d1 (E (overflowIV iv 1))).length = 32 := by
      simp [hd0, hd1, hE]
    rw [List.take_left' hAB, List.drop_left' hAB]

/-- Witness for `c9_ctr_identical_halves`: the zero block cipher, the zero IV
and the 64-byte plaintext of two identical 32-byte halves of ones. -/
theorem c9_ctr_identical_halves_witness :
    (doCipher (ctrStream (fun _ => List.replicate 16 0)) (List.replicate 16 0) 1
        (List.replicate 32 1 ++ List.replicate 32 1)).take 32
      = (doCipher (ctrStream (fun _ => List.replicate 16 0)) (List.replicate 16 0) 1
          (List.replicate 32 1 ++ List.replicate 32 1)).drop 32 :=
  c9_ctr_identical_halves (fun _ => List.replicate 16 0) (fun _ => rfl)
    (List.replicate 16 0) rfl (by simp) (List.replicate 32 1) rfl

/-!
`unwrapKey` from the two SubtleCrypto revisions, embedded up to the point
where the unwrapped key data is imported.  The registry lists, per algorithm
implementation (identified by its canonical `name`), the operations it
defines; `getAlgorithm` performs the `supportedAlgorithms[op][name.toLowerCase()]`
lookup.  The internal digest-helper operations (`get key length`,
`get hash function`, `get hash block size`) are never consulted by
`unwrapKey` and are omitted from the operation lists.  Algorithm dictionaries
are represented by their `name` string (the only field `getAlgorithm` and the
name check read), and the returned `ImportCall` records which `importKey`
implementation the call resolved, the algorithm dictionary passed to it, and
the unwrap capability used.
-/

def algorithms : List (String × List String) := [
  ("AES-CTR", ["generateKey", "importKey", "exportKey", "encrypt", "decrypt"]),
  ("AES-CBC", ["generateKey", "importKey", "exportKey", "encrypt", "decrypt"]),
  ("AES-GCM", ["generateKey", "importKey", "exportKey", "encrypt", "decrypt"]),
  ("AES-KW", ["generateKey", "importKey", "exportKey", "wrapKey", "unwrapKey"]),
  ("ECDSA", ["generateKey", "importKey", "exportKey", "sign", "verify"]),
  ("HKDF", ["importKey", "deriveBits"]),
  ("HMAC", ["generateKey", "importKey", "exportKey", "sign", "verify"]),
  ("PBKDF2", ["importKey", "deriveBits"]),
  ("RSASSA-PKCS1-v1_5", ["generateKey", "importKey", "exportKey", "sign", "verify"]),
  ("RSA-PSS", ["generateKey", "importKey", "exportKey", "sign", "verify"]),
  ("SHA-1", ["digest"]),
  ("SHA-256", ["digest"]),
  ("SHA-384", ["digest"]),
  ("SHA-512", ["digest"])]

/-- ASCII lower-casing of a code point, as `String.prototype.toLowerCase`
acts on the ASCII algorithm names. -/
def lowerCode (c : Char) : Nat :=
  if 65 ≤ c.toNat ∧ c.toNat ≤ 90 then c.toNat + 32 else c.toNat

/-- `a.toLowerCase() === b.toLowerCase()` for ASCII strings. -/
def lowerEq (a b : String) : Bool :=
  a.data.map lowerCode == b.data.map lowerCode

/-- `getAlgorithm(alg, op)`: look up `supportedAlgorithms[op][alg.toLowerCase()]`
(the registry is keyed by lower-cased name, so the lookup compares names
case-insensitively) and throw `NotSupportedError` when the implementation is
`undefined`. -/
def getAlgorithm (alg op : String) : Except JsErr String :=
  match algorithms.find? (fun a => lowerEq a.fst alg && a.snd.contains op) with
  | some a => .ok a.fst
  | none => .error .notSupported

/-- The record of the final `importAlg.importKey(format, key, unwrappedKeyAlgorithm,
extractable, keyUsages)` call: which implementation is invoked, the algorithm
dictionary it receives, and which unwrap capability produced the key bytes. -/
structure ImportCall where
  impl : String
  targetAlg : String
  unwrapFn : String
  deriving DecidableEq, Repr

/-- The shared `try { alg = getAlgorithm(unwrapAlgorithm, unwrapFn = 'unwrapKey') }
catch { alg = getAlgorithm(unwrapAlgorithm, unwrapFn = 'decrypt') }` prologue. -/
def resolveUnwrapFn (unwrapAlgorithm : String) : Except JsErr (String × String) :=
  match getAlgorithm unwrapAlgorithm "unwrapKey" with
  | .ok a => .ok ("unwrapKey", a)
  | .error _ =>
      match getAlgorithm unwrapAlgorithm "decrypt" with
      | .ok a => .ok ("decrypt", a)
      | .error e => .error e

/-- `unwrapKey` of the ES-module revision (lib/subtle.js): the importer is
resolved from `unwrappingKey.algorithm`, before the algorithm-name check and
the usage check. -/
def unwrapKeyEsm (unwrappingKeyAlg : String) (unwrappingKeyUsages : List String)
    (unwrapAlgorithm unwrappedKeyAlgorithm : String) : Except JsErr ImportCall := do
  let fa ← resolveUnwrapFn unwrapAlgorithm
  let importAlg ← getAlgorithm unwrappingKeyAlg "importKey"
  if unwrappingKeyAlg = fa.2 then
    if unwrappingKeyUsages.contains "unwrapKey" then
      pure ⟨importAlg, unwrappedKeyAlgorithm, fa.1⟩
    else .error .invalidAccess
  else .error .invalidAccess

/-- `unwrapKey` of the CommonJS revision: identical except that the importer
is resolved from `unwrappedKeyAlgorithm`. -/
def unwrapKeyCjs (unwrappingKeyAlg : String) (unwrappingKeyUsages : List String)
    (unwrapAlgorithm unwrappedKeyAlgorithm : String) : Except JsErr ImportCall := do
  let fa ← resolveUnwrapFn unwrapAlgorithm
  let importAlg ← getAlgorithm unwrappedKeyAlgorithm "importKey"
  if unwrappingKeyAlg = fa.2 then
    if unwrappingKeyUsages.contains "unwrapKey" then
      pure ⟨importAlg, unwrappedKeyAlgorithm, fa.1⟩
    else .error .invalidAccess
  else .error .invalidAccess

/-- C1: unwrapping an HMAC key with an AES-KW key succeeds in both revisions,
but the ES-module `unwrapKey` (lib/subtle.js, which resolves the importer
from `unwrappingKey.algorithm`) hands the key data to the AES-KW `importKey`
implementation, while the CommonJS revision resolves the importer from the
target algorithm `unwrappedKeyAlgorithm` and hands it to the HMAC importer,
as the claim requires. -/
theorem c1_unwrapKey_importer_resolution :
    unwrapKeyEsm "AES-KW" ["unwrapKey"] "AES-KW" "HMAC"
        = .ok ⟨"AES-KW", "HMAC", "unwrapKey"⟩
    ∧ unwrapKeyCjs "AES-KW" ["unwrapKey"] "AES-KW" "HMAC"
        = .ok ⟨"HMAC", "HMAC", "unwrapKey"⟩ := by
  decide

end WebCrypto
